import Mathlib

/-!
Shallow embedding of the Wuthering Waves derby simulator
(`derby_simulator/derbysim.py` and `derby_simulator/playercubes.py`).

Players are identified by natural-number ids.  The mutable Python object
graph (each `Player` object owns its `position` and ability flags, the
`DerbySim` owns the track and the pending round-order overrides) is
represented by an explicit state record.  Python `random` draws are
modelled by an explicit stream of naturals: each call site consumes one
value and interprets it (weighted boolean draws are represented by the
boolean outcome; for `rand.choices((False, True), (w0, w1))[0]` the value
`true` stands for the second, usually "ability triggers", outcome).
Fallible Python operations (`list.remove`, out-of-range indexing) return
`Except`/`Option`.
-/

/-- The cube variants implemented in `playercubes.py`. -/
inductive CubeType where
  | base
  | roccia
  | brant
  | cantarella
  | zani
  | phoebe
  | cartethiya
  | jinhsi
  | camellya
  | carlotta
  | calcharo
  | changli
  | shorekeeper
  deriving DecidableEq, Repr

/-- Value of `ChangliCube.ability_active`.  Python is dynamically typed:
the field starts as the bool `False`, but `ChangliCube.post_round` assigns
it the raw result of `rand.choices(...)` (a one-element list, the `[0]`
index is missing in the source), after which truthiness of the field is
the truthiness of that list. -/
inductive ChangliFlag where
  | boolFlag (b : Bool)
  | listFlag (l : List Bool)
  deriving DecidableEq, Repr

/-- Python truthiness of the dynamically typed flag: a bool is itself, a
list is truthy iff non-empty. -/
def ChangliFlag.truthy : ChangliFlag → Bool
  | .boolFlag b => b
  | .listFlag l => !l.isEmpty

/-- Per-player mutable state: identity is the map key (a `Nat` id), the
fields mirror `Player.__init__` and the subclass `__init__`s
(`ability_expended`, `ability_active`, `num_carried`).  `changli_flag`
holds the dynamically typed `ability_active` of a `ChangliCube`. -/
structure PState where
  cube : CubeType
  position : Nat
  ability_expended : Bool
  ability_active : Bool
  num_carried : Nat
  changli_flag : ChangliFlag
  deriving DecidableEq, Repr

/-- State of a `DerbySim` instance: the roster (`self.players`, a list of
ids), the per-player objects, the track (`self.track`, a list of pads,
each an ordered list of ids, front = lower in the stack), the pending
next-round-order overrides (`self.next_round_order`) and the `__init__`
configuration fields `num_squares` / `shuffle_players`. -/
structure SimState where
  num_squares : Nat
  shuffle_players : Bool
  players : List Nat
  pstate : Nat → PState
  track : List (List Nat)
  next_round_order : List (Nat × Option Nat)

/-- Random source: a stream of naturals and a cursor. -/
structure Rng where
  g : Nat → Nat
  i : Nat

/-- Consume one random value. -/
def Rng.next (r : Rng) : Nat × Rng := (r.g r.i, { r with i := r.i + 1 })

/-- Consume one value, interpreted as a boolean draw (weighted draws are
represented by which outcome was produced). -/
def Rng.nextBool (r : Rng) : Bool × Rng :=
  let (v, r') := r.next
  (v % 2 == 1, r')

/-- Errors raised by the Python engine: `invariantViolation` models a
`ValueError` from `list.remove`/`list.index` (the requested element is
absent), `indexError` an out-of-range list subscript. -/
inductive MoveErr where
  | invariantViolation
  | indexError
  deriving DecidableEq, Repr

/-- Python `list.insert(i, x)` for a non-negative index: inserts before
position `i`, appending when `i` is past the end.  (No call site of the
engine passes a negative index.) -/
def pyInsertAt (l : List α) (i : Nat) (x : α) : List α :=
  l.take i ++ x :: l.drop i

/-- Python `list.remove(x)`: removes the first occurrence, `ValueError`
(modelled as `none`) when absent. -/
def pyRemoveFirst [DecidableEq α] (l : List α) (x : α) : Option (List α) :=
  if x ∈ l then some (l.erase x) else none

/-- Python negative-start slice `l[-k:]`: for `k = 0` this is `l[0:]`,
the whole list, otherwise the last `k` elements (all of `l` when
`k ≥ len(l)`). -/
def pyTakeNeg (l : List α) (k : Nat) : List α :=
  if k = 0 then l else l.drop (l.length - k)

/-- The pad content after placing `pid` into `dest`: appended when no
stack position is given, otherwise inserted at it (Python semantics). -/
def pyPlaceIn (dest : List Nat) (sp : Option Nat) (pid : Nat) : List Nat :=
  match sp with
  | none => dest ++ [pid]
  | some i => pyInsertAt dest i pid

/-- `DerbySim.get_winners`: the occupants of the finish pad (last pad),
`[]` when it is empty. -/
def get_winners (s : SimState) : List Nat :=
  s.track.getLastD []

/-- The stacks of `DerbySim.get_summary` (the dense track): the non-empty
pads in ascending position order. -/
def summary_stacks (s : SimState) : List (List Nat) :=
  s.track.filter (fun pad => !pad.isEmpty)

/-- The rank list underlying `DerbySim.get_ranks`: all players flattened
from the dense track and reversed, so that index 0 (rank 1) is the top of
the stack on the furthest occupied pad. -/
def ranks_list (s : SimState) : List Nat :=
  (summary_stacks s).flatten.reverse

/-- `DerbySim.get_ranks()[player]`: rank 1 is furthest along. -/
def rank_of (s : SimState) (pid : Nat) : Nat :=
  (ranks_list s).indexOf pid + 1

/-- `DerbySim.get_stacked_players`: splits the player's pad at the
player's index into `(stacked_on, stacked_by)`.  Fails (Python
`IndexError`/`ValueError`) when the recorded position is out of range or
the player is not on its recorded pad. -/
def get_stacked_players (s : SimState) (pid : Nat) :
    Option (List Nat × List Nat) :=
  match s.track.get? (s.pstate pid).position with
  | none => none
  | some pad =>
    if pid ∈ pad then
      let i := pad.indexOf pid
      some (pad.take i, pad.drop (i + 1))
    else none

/-- `DerbySim.move_player_to`: remove the player from the pad at its
recorded position (`ValueError` → `invariantViolation` when it is not
there), then append it to the target pad or insert at `stack_position`,
and update the recorded position. -/
def move_player_to (s : SimState) (pid : Nat) (new_pos : Nat)
    (stack_position : Option Nat) : Except MoveErr SimState :=
  match s.track.get? (s.pstate pid).position with
  | none => .error .indexError
  | some pad =>
    match pyRemoveFirst pad pid with
    | none => .error .invariantViolation
    | some pad' =>
      let track1 := s.track.set (s.pstate pid).position pad'
      match track1.get? new_pos with
      | none => .error .indexError
      | some dest =>
        let dest' := match stack_position with
          | none => dest ++ [pid]
          | some i => pyInsertAt dest i pid
        .ok { s with
          track := track1.set new_pos dest'
          pstate := fun q =>
            if q = pid then { s.pstate pid with position := new_pos }
            else s.pstate q }

/-- `DerbySim.move_forward`: move by `step_size` from the current
recorded position. -/
def move_forward (s : SimState) (pid : Nat) (step_size : Nat)
    (stack_position : Option Nat) : Except MoveErr SimState :=
  move_player_to s pid ((s.pstate pid).position + step_size) stack_position

/-- Apply a list of action requests `(player, step_size, stack_position)`
in order, exactly as the loops in `DerbySim.step` and
`DerbySim.post_round` do. -/
def apply_actions (s : SimState) :
    List (Nat × Nat × Option Nat) → Except MoveErr SimState
  | [] => .ok s
  | (pid, sz, sp) :: rest =>
    match move_forward s pid sz sp with
    | .error e => .error e
    | .ok s' => apply_actions s' rest

/-- Replace one player's object state. -/
def setP (s : SimState) (pid : Nat) (st : PState) : SimState :=
  { s with pstate := fun q => if q = pid then st else s.pstate q }

/-- `Player.roll`: `(rand.randint(1, 3), 0)`. -/
def Player.roll (rng : Rng) : Nat × Nat × Rng :=
  let (v, rng') := rng.next
  (1 + v % 3, 0, rng')

/-- `RocciaCube.roll`: +2 bonus iff last in the round order. -/
def RocciaCube.roll (isLast : Bool) (rng : Rng) : Nat × Nat × Rng :=
  let (b, _, rng') := Player.roll rng
  (b, if isLast then 2 else 0, rng')

/-- `BrantCube.roll`: +2 bonus iff first in the round order. -/
def BrantCube.roll (isFirst : Bool) (rng : Rng) : Nat × Nat × Rng :=
  let (b, _, rng') := Player.roll rng
  (b, if isFirst then 2 else 0, rng')

/-- `ZaniCube.roll`: the inner `roll_ability` draws the 40 percent
trigger and ands it with `len(stacked_by) > 0`; in both branches the
trigger is drawn first and the base `rand.choice((1, 3))` second.  When
the sticky flag was set it is consumed (+2 bonus) and the flag ends up
equal to the fresh trigger either way.  Returns
`(base, bonus, new_ability_active, rng)`. -/
def ZaniCube.roll (ability_active : Bool) (stackedByNonempty : Bool)
    (rng : Rng) : Nat × Nat × Bool × Rng :=
  let (t, rng₁) := rng.nextBool
  let trigger := stackedByNonempty && t
  let (c, rng₂) := rng₁.nextBool
  let base := if c then 1 else 3
  if ability_active then (base, 2, trigger, rng₂)
  else (base, 0, trigger, rng₂)

/-- `PhoebeCube.roll`: 50 percent chance of +1 bonus. -/
def PhoebeCube.roll (rng : Rng) : Nat × Nat × Rng :=
  let (b, _, rng₁) := Player.roll rng
  let (c, rng₂) := rng₁.nextBool
  (b, if c then 1 else 0, rng₂)

/-- `CartethiyaCube.roll`: when the sticky flag is set, 60 percent
chance of +2 bonus (the weighted draw is only made in that case). -/
def CartethiyaCube.roll (ability_active : Bool) (rng : Rng) :
    Nat × Nat × Rng :=
  let (b, _, rng₁) := Player.roll rng
  if ability_active then
    let (t, rng₂) := rng₁.nextBool
    (b, if t then 2 else 0, rng₂)
  else (b, 0, rng₁)

/-- `CarlottaCube.roll`: 28 percent chance the bonus equals the base
roll. -/
def CarlottaCube.roll (rng : Rng) : Nat × Nat × Rng :=
  let (b, _, rng₁) := Player.roll rng
  let (t, rng₂) := rng₁.nextBool
  (b, if t then b else 0, rng₂)

/-- `CalcharoCube.roll`: +3 bonus iff last in the round order. -/
def CalcharoCube.roll (isLast : Bool) (rng : Rng) : Nat × Nat × Rng :=
  let (b, _, rng') := Player.roll rng
  (b, if isLast then 3 else 0, rng')

/-- `ShorekeeperCube.roll`: `(rand.choice((2, 3)), 0)`. -/
def ShorekeeperCube.roll (rng : Rng) : Nat × Nat × Rng :=
  let (v, rng') := rng.next
  (if v % 2 == 0 then 2 else 3, 0, rng')

/-- Polymorphic dispatch of `player.roll(round_order=round_order)` as
invoked by `DerbySim.roll_turns`: the keyword-only call leaves the
`stacked_on`/`stacked_by` parameters at their default empty tuples, so
Zani's stacking condition is evaluated on an empty sequence.  Returns
`(base, bonus, updated player object, rng)`. -/
def roll_dispatch (st : PState) (isFirst isLast : Bool) (rng : Rng) :
    Nat × Nat × PState × Rng :=
  match st.cube with
  | .roccia =>
    let (b, bo, rng') := RocciaCube.roll isLast rng
    (b, bo, st, rng')
  | .brant =>
    let (b, bo, rng') := BrantCube.roll isFirst rng
    (b, bo, st, rng')
  | .zani =>
    let (b, bo, act, rng') := ZaniCube.roll st.ability_active false rng
    (b, bo, { st with ability_active := act }, rng')
  | .phoebe =>
    let (b, bo, rng') := PhoebeCube.roll rng
    (b, bo, st, rng')
  | .cartethiya =>
    let (b, bo, rng') := CartethiyaCube.roll st.ability_active rng
    (b, bo, st, rng')
  | .carlotta =>
    let (b, bo, rng') := CarlottaCube.roll rng
    (b, bo, st, rng')
  | .calcharo =>
    let (b, bo, rng') := CalcharoCube.roll isLast rng
    (b, bo, st, rng')
  | .shorekeeper =>
    let (b, bo, rng') := ShorekeeperCube.roll rng
    (b, bo, st, rng')
  | _ =>
    let (b, bo, rng') := Player.roll rng
    (b, bo, st, rng')

/-- Loop body of `DerbySim.roll_turns`: rolls every player of the round
order in sequence (each cube reads its own index in the order), applying
any flag updates to the player objects.  Returns
`[(player, roll, bonus_roll), ...]`. -/
def roll_turns_aux (order : List Nat) :
    List Nat → SimState → Rng → List (Nat × Nat × Nat) × SimState × Rng
  | [], s, rng => ([], s, rng)
  | p :: rest, s, rng =>
    let isFirst := order.indexOf p == 0
    let isLast := order.indexOf p == order.length - 1
    let (b, bo, st', rng') := roll_dispatch (s.pstate p) isFirst isLast rng
    let (ts, s'', rng'') := roll_turns_aux order rest (setP s p st') rng'
    ((p, b, bo) :: ts, s'', rng'')

/-- `DerbySim.roll_turns`. -/
def roll_turns (s : SimState) (order : List Nat) (rng : Rng) :
    List (Nat × Nat × Nat) × SimState × Rng :=
  roll_turns_aux order order s rng

/-- `Player.calculate_actions` (default behaviour): move self by
`step_size` and carry every member of `stacked_by`, in order.  The
`round_order` and `current_rank` parameters are unused by every
implementation in the source. -/
def Player.calculate_actions (pid : Nat) (step_size : Nat)
    (stacked_by : List Nat) : List (Nat × Nat × Option Nat) :=
  (pid, step_size, none) :: stacked_by.map (fun o => (o, step_size, none))

/-- `CantarellaCube.calculate_actions`: on a non-first step with a
non-empty `stacked_on` and the one-shot flag unused, expend the flag,
remember `num_carried`, and move the carried cubes first (the
`insert(0, ...)` loop puts them in front in reverse order), then self,
then `stacked_by`; while the flag is active carry the last
`num_carried` members of `stacked_on`; a last step always clears the
active flag. -/
def CantarellaCube.calculate_actions (pid : Nat) (st : PState)
    (step_size : Nat) (stacked_on stacked_by : List Nat)
    (first_step last_step : Bool) :
    List (Nat × Nat × Option Nat) × PState :=
  let (action, st₁) :=
    if first_step then
      (Player.calculate_actions pid step_size stacked_by, st)
    else if stacked_on.length < 1 then
      (Player.calculate_actions pid step_size stacked_by, st)
    else if !st.ability_expended then
      (stacked_on.reverse.map (fun o => (o, step_size, none)) ++
        (pid, step_size, none) ::
          stacked_by.map (fun o => (o, step_size, none)),
        { st with ability_expended := true, ability_active := true,
                  num_carried := stacked_on.length })
    else if st.ability_active then
      ((pyTakeNeg stacked_on st.num_carried).reverse.map
          (fun o => (o, step_size, none)) ++
        (pid, step_size, none) ::
          stacked_by.map (fun o => (o, step_size, none)),
        st)
    else
      (Player.calculate_actions pid step_size stacked_by, st)
  if last_step then (action, { st₁ with ability_active := false })
  else (action, st₁)

/-- `JinhsiCube.calculate_actions`: on a first step with a non-empty
`stacked_by`, redraw the activation flag (40 percent chance); when
active, reposition to the top of the stack (a zero-distance move) then
step, clearing the flag. -/
def JinhsiCube.calculate_actions (pid : Nat) (st : PState)
    (step_size : Nat) (stacked_by : List Nat) (first_step : Bool)
    (rng : Rng) : List (Nat × Nat × Option Nat) × PState × Rng :=
  let (st₁, rng₁) :=
    if first_step && !stacked_by.isEmpty then
      let (t, rng') := rng.nextBool
      ({ st with ability_active := t }, rng')
    else (st, rng)
  if st₁.ability_active then
    ([(pid, 0, none), (pid, step_size, none)],
      { st₁ with ability_active := false }, rng₁)
  else
    (Player.calculate_actions pid step_size stacked_by, st₁, rng₁)

/-- `CamellyaCube.calculate_actions`: the activation flag is only ever
redrawn when it is already `True` on a first step; when (still) active,
move self by the number of stack-mates and then by the step, leaving
everyone else in place. -/
def CamellyaCube.calculate_actions (pid : Nat) (st : PState)
    (step_size : Nat) (stacked_on stacked_by : List Nat)
    (first_step : Bool) (rng : Rng) :
    List (Nat × Nat × Option Nat) × PState × Rng :=
  let (st₁, rng₁) :=
    if first_step && st.ability_active then
      let (t, rng') := rng.nextBool
      ({ st with ability_active := t }, rng')
    else (st, rng)
  if st₁.ability_active then
    ([(pid, stacked_on.length + stacked_by.length, none),
      (pid, step_size, none)],
      { st₁ with ability_active := false }, rng₁)
  else
    (Player.calculate_actions pid step_size stacked_by, st₁, rng₁)

/-- Polymorphic dispatch of `player.calculate_actions(...)` as invoked
by `DerbySim.step`. -/
def calc_dispatch (st : PState) (pid : Nat) (step_size : Nat)
    (stacked_on stacked_by : List Nat) (first_step last_step : Bool)
    (rng : Rng) : List (Nat × Nat × Option Nat) × PState × Rng :=
  match st.cube with
  | .cantarella =>
    let (a, st') := CantarellaCube.calculate_actions pid st step_size
      stacked_on stacked_by first_step last_step
    (a, st', rng)
  | .jinhsi =>
    JinhsiCube.calculate_actions pid st step_size stacked_by first_step rng
  | .camellya =>
    CamellyaCube.calculate_actions pid st step_size stacked_on stacked_by
      first_step rng
  | _ => (Player.calculate_actions pid step_size stacked_by, st, rng)

/-- `DerbySim.step`: read the player's stack neighbourhood, query the
player for actions (always with `step_size = 1` from `one_round`), and
apply every returned action immediately. -/
def sim_step (s : SimState) (pid : Nat) (first_step last_step : Bool)
    (rng : Rng) : Except MoveErr (SimState × Rng) :=
  match get_stacked_players s pid with
  | none => .error .invariantViolation
  | some (stacked_on, stacked_by) =>
    let (actions, st', rng') := calc_dispatch (s.pstate pid) pid 1
      stacked_on stacked_by first_step last_step rng
    match apply_actions (setP s pid st') actions with
    | .error e => .error e
    | .ok s' => .ok (s', rng')

/-- The `for _ in range(num_steps - 2)` middle steps of a turn. -/
def run_mid_steps (pid : Nat) :
    Nat → SimState → Rng → Except MoveErr (SimState × Rng)
  | 0, s, rng => .ok (s, rng)
  | n + 1, s, rng =>
    match sim_step s pid false false rng with
    | .error e => .error e
    | .ok (s', rng') => run_mid_steps pid n s' rng'

/-- One competitor's turn inside `DerbySim.one_round`:
`num_steps = min(roll + bonus, steps_until_end)`; zero steps skip the
turn, one step is both first and last, otherwise first, middles, last.
(The `current_rank` computed in the source has no effect on any
`calculate_actions` implementation.) -/
def run_turn (s : SimState) (pid : Nat) (roll bonus : Nat) (rng : Rng) :
    Except MoveErr (SimState × Rng) :=
  let steps_until_end := (s.track.length - 1) - (s.pstate pid).position
  let num_steps := min (roll + bonus) steps_until_end
  if num_steps = 0 then .ok (s, rng)
  else if num_steps = 1 then sim_step s pid true true rng
  else
    match sim_step s pid true false rng with
    | .error e => .error e
    | .ok (s₁, rng₁) =>
      match run_mid_steps pid (num_steps - 2) s₁ rng₁ with
      | .error e => .error e
      | .ok (s₂, rng₂) => sim_step s₂ pid false true rng₂

/-- The turn loop of `DerbySim.one_round`: after each turn the winners
are checked; a non-empty finish pad stops the loop and returns its
occupants. -/
def run_turns (s : SimState) (rng : Rng) :
    List (Nat × Nat × Nat) → Except MoveErr (SimState × List Nat × Rng)
  | [] => .ok (s, [], rng)
  | (p, r, b) :: rest =>
    match run_turn s p r b rng with
    | .error e => .error e
    | .ok (s', rng') =>
      let winners := get_winners s'
      if winners.isEmpty then run_turns s' rng' rest
      else .ok (s', winners, rng')

/-- `ChangliCube.post_round`: when `stacked_on` is non-empty the flag is
assigned the raw result of `rand.choices((False, True), (0.35, 0.65))`
(a one-element list — the `[0]` index is missing in the source); the
request to move to the end of the next round order fires whenever the
flag is truthy.  Returns `(flag, next_round_order entries, rng)`. -/
def ChangliCube.post_round (pid : Nat) (flag : ChangliFlag)
    (stacked_on : List Nat) (rng : Rng) :
    ChangliFlag × List (Nat × Option Nat) × Rng :=
  let (flag₁, rng₁) :=
    if stacked_on.length > 0 then
      let (t, rng') := rng.nextBool
      (ChangliFlag.listFlag [t], rng')
    else (flag, rng)
  if flag₁.truthy then (flag₁, [(pid, none)], rng₁)
  else (flag₁, [], rng₁)

/-- Polymorphic dispatch of `player.post_round(round_order,
current_rank)` as invoked by `DerbySim.post_round`: the two-argument
call leaves every `stacked_on`/`stacked_by` parameter at its default
empty tuple.  Returns `(updated player object, extra actions,
next-round-order requests, rng)`. -/
def post_round_dispatch (st : PState) (pid : Nat) (rank : Nat × Nat)
    (rng : Rng) :
    PState × List (Nat × Nat × Option Nat) × List (Nat × Option Nat) × Rng :=
  match st.cube with
  | .cartethiya =>
    (if rank.1 = rank.2 then { st with ability_active := true } else st,
      [], [], rng)
  | .changli =>
    let (flag', reqs, rng') := ChangliCube.post_round pid st.changli_flag [] rng
    ({ st with changli_flag := flag' }, [], reqs, rng')
  | _ => (st, [], [], rng)

/-- The `for player in self.players` loop inside `DerbySim.post_round`:
invokes every roster member's `post_round` with the one `current_rank`
the method received, collecting actions and requests.  The returned
trace lists the players whose `post_round` was invoked, in order. -/
def derby_post_round_aux (rank : Nat × Nat) :
    List Nat → SimState → Rng →
    SimState × List (Nat × Nat × Option Nat) × List (Nat × Option Nat) ×
      List Nat × Rng
  | [], s, rng => (s, [], [], [], rng)
  | p :: rest, s, rng =>
    let (st', acts, reqs, rng') := post_round_dispatch (s.pstate p) p rank rng
    let (s'', acts₂, reqs₂, trace, rng'') :=
      derby_post_round_aux rank rest (setP s p st') rng'
    (s'', acts ++ acts₂, reqs ++ reqs₂, p :: trace, rng'')

/-- `DerbySim.post_round`: despite taking a single `player` argument it
iterates over the whole roster (the loop variable shadows the
parameter), applies all collected extra actions, and overwrites
`self.next_round_order` with the collected requests. -/
def derby_post_round (s : SimState) (rank : Nat × Nat) (rng : Rng) :
    Except MoveErr (SimState × List Nat × Rng) :=
  let (s₁, acts, reqs, trace, rng₁) := derby_post_round_aux rank s.players s rng
  match apply_actions s₁ acts with
  | .error e => .error e
  | .ok s₂ => .ok ({ s₂ with next_round_order := reqs }, trace, rng₁)

/-- The post-round loop at the end of `DerbySim.one_round`: for every
roster member it computes that member's rank and stack neighbourhood
(the latter can raise and is otherwise unused) and calls
`DerbySim.post_round`.  The traces of all the inner calls are
concatenated. -/
def post_round_phase :
    List Nat → SimState → Rng → Except MoveErr (SimState × List Nat × Rng)
  | [], s, rng => .ok (s, [], rng)
  | p :: rest, s, rng =>
    let rank := (rank_of s p, s.players.length)
    match get_stacked_players s p with
    | none => .error .invariantViolation
    | some _ =>
      match derby_post_round s rank rng with
      | .error e => .error e
      | .ok (s', trace, rng') =>
        match post_round_phase rest s' rng' with
        | .error e => .error e
        | .ok (s'', traces, rng'') => .ok (s'', trace ++ traces, rng'')

/-- `DerbySim.roll_round_order` after the sample: for each pending
`(player, pos)` override, `remove` the player (`ValueError`, modelled as
`none`, when absent) and append (`pos = None`) or insert at `pos`. -/
def roll_round_order (samp : List Nat) :
    List (Nat × Option Nat) → Option (List Nat)
  | [] => some samp
  | (p, pos) :: rest =>
    if p ∈ samp then
      let l := samp.erase p
      roll_round_order
        (match pos with
          | none => l ++ [p]
          | some i => pyInsertAt l i p) rest
    else none

/-- Fuel-indexed helper for `sample_perm` (`eraseIdx` at an in-range
index shortens the list by exactly one, so fuel equal to the initial
length always suffices). -/
def sample_perm_fuel : Nat → Rng → List Nat → List Nat × Rng
  | 0, rng, _ => ([], rng)
  | _ + 1, rng, [] => ([], rng)
  | fuel + 1, rng, x :: xs =>
    let (v, rng') := rng.next
    let i := v % (x :: xs).length
    let (tail, rng'') := sample_perm_fuel fuel rng' ((x :: xs).eraseIdx i)
    ((x :: xs).getD i x :: tail, rng'')

/-- `rand.sample(self.players, len(self.players))`: draw a permutation,
modelled by repeatedly consuming one random value to pick the next
element. -/
def sample_perm (rng : Rng) (l : List Nat) : List Nat × Rng :=
  sample_perm_fuel l.length rng l

/-- Start of a round in `DerbySim.one_round` (when no winners exist):
draw the round order with the pending overrides applied, then clear
`self.next_round_order`. -/
def begin_round (s : SimState) (rng : Rng) :
    Option (List Nat × SimState × Rng) :=
  let (samp, rng') := sample_perm rng s.players
  (roll_round_order samp s.next_round_order).map
    (fun o => (o, { s with next_round_order := [] }, rng'))

/-- `DerbySim.one_round`: abort immediately when winners already exist,
otherwise draw the round order, roll every turn up front, run the turn
loop, and — only when no winner was found — run the post-round phase. -/
def one_round (s : SimState) (rng : Rng) :
    Except MoveErr (SimState × List Nat × Rng) :=
  let winners := get_winners s
  if !winners.isEmpty then .ok (s, winners, rng)
  else
    match begin_round s rng with
    | none => .error .invariantViolation
    | some (order, s₀, rng₀) =>
      let (turns, s₁, rng₁) := roll_turns s₀ order rng₀
      match run_turns s₁ rng₁ turns with
      | .error e => .error e
      | .ok (s₂, winners₂, rng₂) =>
        if winners₂.isEmpty then
          match post_round_phase s₂.players s₂ rng₂ with
          | .error e => .error e
          | .ok (s₃, _, rng₃) => .ok (s₃, [], rng₃)
        else .ok (s₂, winners₂, rng₂)

/-- Set the recorded position of every listed player to `pos`. -/
def set_positions (pstate : Nat → PState) (pos : Nat) :
    List Nat → (Nat → PState)
  | [] => pstate
  | p :: rest =>
    set_positions
      (fun q => if q = p then { pstate p with position := pos }
        else pstate q) pos rest

/-- The `self.track[group_idx] = players` loop of the second-half
`match_setup`. -/
def assign_groups (track : List (List Nat)) :
    List (List Nat) → Nat → List (List Nat)
  | [], _ => track
  | g :: gs, i => assign_groups (track.set i g) gs (i + 1)

/-- The position updates of the second-half `match_setup`. -/
def assign_positions (pstate : Nat → PState) :
    List (List Nat) → Nat → (Nat → PState)
  | [], _ => pstate
  | g :: gs, i => assign_positions (set_positions pstate i g) gs (i + 1)

/-- `DerbySim.match_setup`.  First half: fresh `num_squares`-pad track,
optional in-place shuffle of `self.players`, everyone on pad 0.  Second
half: the track grows by the number of distinct groups of the previous
final state and group `g` of the summary (ascending position order, so
the furthest group gets the highest new pad) starts on pad `g`.  At
both call sites the `players` argument is the `self.players` list
object itself, so it is not modelled separately. -/
def match_setup (s : SimState) (num_squares : Nat) (first_half : Bool)
    (rng : Rng) : SimState × Rng :=
  if first_half then
    let (roster, rng') :=
      if s.shuffle_players then sample_perm rng s.players
      else (s.players, rng)
    ({ s with players := roster,
              track := (List.replicate num_squares ([] : List Nat)).set 0 roster,
              pstate := set_positions s.pstate 0 roster }, rng')
  else
    let groups := summary_stacks s
    let track_len := num_squares + groups.length
    ({ s with
        track := assign_groups (List.replicate track_len ([] : List Nat)) groups 0,
        pstate := assign_positions s.pstate groups 0 }, rng)

/-- The `match_setup` call of `DerbySim.half_game`: the `num_squares`
parameter is not forwarded, so its default value 23 is always used. -/
def half_game_setup (s : SimState) (first_half : Bool) (rng : Rng) :
    SimState × Rng :=
  match_setup s 23 first_half rng

/-- `DerbySim.__init__` with an explicit roster of cube variants
(player `i` gets `cubes[i]`): stores the configuration and calls
`match_setup(self.players, num_squares)` (first half). -/
def mkSim (cubes : List CubeType) (num_squares : Nat) (shuffle : Bool)
    (rng : Rng) : SimState × Rng :=
  let s₀ : SimState :=
    { num_squares := num_squares
      shuffle_players := shuffle
      players := List.range cubes.length
      pstate := fun q =>
        { cube := cubes.getD q .base
          position := 0
          ability_expended := false
          ability_active := false
          num_carried := 0
          changli_flag := .boolFlag false }
      track := []
      next_round_order := [] }
  match_setup s₀ num_squares true rng

/-- A freshly constructed player object of the given variant at the
given pad: all ability state at its `__init__` defaults. -/
def initPState (c : CubeType) (pos : Nat) : PState :=
  { cube := c
    position := pos
    ability_expended := false
    ability_active := false
    num_carried := 0
    changli_flag := .boolFlag false }

/-- States reachable from `init` during a full game: via completed
`one_round` transitions and via the leg resets performed by
`half_game`. -/
inductive Reachable : SimState → SimState → Prop where
  | refl (s : SimState) : Reachable s s
  | round {s₀ s s' : SimState} {rng rng' : Rng} {w : List Nat} :
      Reachable s₀ s → one_round s rng = .ok (s', w, rng') →
      Reachable s₀ s'
  | leg_setup {s₀ s : SimState} (first_half : Bool) (rng : Rng) :
      Reachable s₀ s → Reachable s₀ (half_game_setup s first_half rng).1

/-- The track/position invariant: the roster has no duplicates, the
players on the track are exactly the roster (as a multiset), and every
roster member found on a pad has that pad's index recorded as its
position. -/
def TrackInv (s : SimState) : Prop :=
  s.players.Nodup ∧
  s.track.flatten.Perm s.players ∧
  ∀ pid ∈ s.players, ∀ i pad, s.track.get? i = some pad → pid ∈ pad →
    (s.pstate pid).position = i

/-- Camellya's activation flag is unset, for every player object whose
variant is Camellya. -/
def CamellyaOff (s : SimState) : Prop :=
  ∀ q : Nat, (s.pstate q).cube = .camellya →
    (s.pstate q).ability_active = false

/-- Default-cube roster state used for exercising the post-round phase:
two base players mid-track, no winner yet. -/
def twoBaseMidState : SimState :=
  { num_squares := 3
    shuffle_players := false
    players := [0, 1]
    pstate := fun _ => initPState .base 0
    track := [[0, 1], [], []]
    next_round_order := [] }

/-- Configured-track-length-5 simulator whose first leg has finished with
player 1 on the finish pad and player 0 on pad 0 (two distinct finishing
groups). -/
def fiveSquareFinishedState : SimState :=
  { num_squares := 5
    shuffle_players := false
    players := [0, 1]
    pstate := fun q => initPState .base (if q = 1 then 4 else 0)
    track := [[0], [], [], [], [1]]
    next_round_order := [] }

/-- State for C2: two base players stacked on pad 1 of a 3-pad track;
player 0's single-step turn carries player 1 along. -/
def stackedPairState : SimState :=
  { num_squares := 3
    shuffle_players := false
    players := [0, 1]
    pstate := fun _ => initPState .base 1
    track := [[], [0, 1], []]
    next_round_order := [] }

/-- Winner-present state for the C2 witness: player 0 already on the
finish pad of a 2-pad track. -/
def winnerPresentState : SimState :=
  { num_squares := 2
    shuffle_players := false
    players := [0, 1]
    pstate := fun q => initPState .base (if q = 0 then 1 else 0)
    track := [[1], [0]]
    next_round_order := [] }

/-- The state in which player 0's one-step turn from `stackedPairState`
ends (both stacked players on the finish pad). -/
def stackedPairTurnResult : SimState :=
  match run_turn stackedPairState 0 1 0 ⟨fun _ => 0, 0⟩ with
  | .ok (s, _) => s
  | .error _ => stackedPairState

/-- Carrier roster at the start of a turn: Cantarella (id 0) stacked on
top of players 1 and 2 on pad 0 of a 4-pad track, one-shot flag unused. -/
def carrierTurnStartState : SimState :=
  { num_squares := 4
    shuffle_players := false
    players := [0, 1, 2]
    pstate := fun q => initPState (if q = 0 then .cantarella else .base) 0
    track := [[1, 2, 0], [], [], []]
    next_round_order := [] }

/-- Concrete carrier stack for the C6 witness: Cantarella (id 0) on top
of players 1 and 2 on pad 1 of a 4-pad track. -/
def carrierStackedState : SimState :=
  { num_squares := 4
    shuffle_players := false
    players := [0, 1, 2]
    pstate := fun q => initPState (if q = 0 then .cantarella else .base) 1
    track := [[], [1, 2, 0], [], []]
    next_round_order := [] }

/-- State whose player 1 has a corrupted recorded position (it records
pad 2 but actually sits on pad 0), while player 0's record is
consistent. -/
def mismatchState : SimState :=
  { num_squares := 3
    shuffle_players := false
    players := [0, 1]
    pstate := fun q => initPState .base (if q = 1 then 2 else 0)
    track := [[0, 1], [], []]
    next_round_order := [] }

/-- Roster with a pending "move player 0 to the end" override, used as
the C8 witness input. -/
def overrideQueueState : SimState :=
  { num_squares := 3
    shuffle_players := false
    players := [0, 1]
    pstate := fun _ => initPState .base 0
    track := [[0, 1], [], []]
    next_round_order := [(0, none)] }

/-- The combined invariant threaded through the engine. -/
def StepInvs (s : SimState) : Prop := TrackInv s ∧ CamellyaOff s

/-- C1: counter-evidence for "post_round is invoked exactly once per
competitor".  For a two-player roster, the post-round phase at the end of
`one_round` produces the invocation trace `[0, 1, 0, 1]`: the outer loop
in `one_round` runs once per competitor and `DerbySim.post_round` ignores
its `player` argument and iterates over the whole roster again, so every
competitor's `post_round` is invoked twice. -/
theorem claim_C1_post_round_invoked_n_times_each :
    (post_round_phase twoBaseMidState.players twoBaseMidState
        ⟨fun _ => 0, 0⟩).toOption.map (fun r => r.2.1) = some [0, 1, 0, 1] ∧
    List.count 0 [0, 1, 0, 1] = 2 ∧ List.count 1 [0, 1, 0, 1] = 2 := by
  refine ⟨rfl, rfl, rfl⟩

/-- C3: counter-evidence for "leg 2's track length equals N + G for a
match configured with track length N".  With `num_squares = 5` configured
and `G = 2` finishing groups, the second-leg setup performed by
`half_game` builds a track of length `23 + 2 = 25` (the `num_squares`
argument of `match_setup` is not forwarded, so its default 23 is used),
not `5 + 2 = 7`.  The group placement itself is as claimed: the
earliest-finishing group (the leg-1 winner) starts furthest ahead. -/
theorem claim_C3_second_leg_track_length :
    fiveSquareFinishedState.num_squares = 5 ∧
    (summary_stacks fiveSquareFinishedState).length = 2 ∧
    (half_game_setup fiveSquareFinishedState false
        ⟨fun _ => 0, 0⟩).1.track.length = 25 ∧
    (half_game_setup fiveSquareFinishedState false
        ⟨fun _ => 0, 0⟩).1.track.take 2 = [[0], [1]] ∧
    ((half_game_setup fiveSquareFinishedState false
        ⟨fun _ => 0, 0⟩).1.pstate 0).position = 0 ∧
    ((half_game_setup fiveSquareFinishedState false
        ⟨fun _ => 0, 0⟩).1.pstate 1).position = 1 ∧
    (25 : Nat) ≠ 5 + 2 := by
  refine ⟨rfl, rfl, rfl, rfl, rfl, rfl, by decide⟩

/-- C4: counter-evidence for the claimed "65 percent chance to set the
flag, otherwise it stays unset".  With competitors below and the weighted
draw producing `False` (the 35 percent outcome, random value 0),
`ChangliCube.post_round` assigns the flag the un-indexed one-element list
`[False]` returned by `rand.choices`, which is truthy, so the flag ends
set and the move-to-end request is emitted anyway. -/
theorem claim_C4_changli_flag_always_truthy :
    (ChangliCube.post_round 5 (.boolFlag false) [7]
        ⟨fun _ => 0, 0⟩).1 = ChangliFlag.listFlag [false] ∧
    (ChangliCube.post_round 5 (.boolFlag false) [7]
        ⟨fun _ => 0, 0⟩).1.truthy = true ∧
    (ChangliCube.post_round 5 (.boolFlag false) [7]
        ⟨fun _ => 0, 0⟩).2.1 = [(5, none)] := by
  refine ⟨rfl, rfl, rfl⟩

/-- C5: `ZaniCube.roll` — for every flag state, stacking condition and
random draw: the base is 1 or 3; the bonus is +2 exactly when the sticky
charged flag was set (which this roll consumes); and the flag ends the
roll set exactly when `stacked_by` is non-empty and the 40 percent
trigger draw fired. -/
theorem claim_C5_zani_roll (active stackedByNonempty : Bool) (rng : Rng) :
    ((ZaniCube.roll active stackedByNonempty rng).1 = 1 ∨
      (ZaniCube.roll active stackedByNonempty rng).1 = 3) ∧
    (ZaniCube.roll active stackedByNonempty rng).2.1 =
      (if active then 2 else 0) ∧
    (ZaniCube.roll active stackedByNonempty rng).2.2.1 =
      (stackedByNonempty && rng.nextBool.1) := by
  obtain h | h := Nat.mod_two_eq_zero_or_one (rng.g (rng.i + 1)) <;>
    cases active <;>
    simp [ZaniCube.roll, Rng.nextBool, Rng.next, h]

/-- C2: counter-evidence for "after every single pad movement, if the
finish pad is non-empty then resolution halts immediately ... once the
set of winners is non-empty, no further pad mutation occurs".  Player 0's
step first moves player 0 onto the finish pad — the finish pad is then
non-empty with occupants `[0]` — yet the remaining action of the same
step is still applied, mutating pads further and ending the turn with
finish-pad occupants `[0, 1]`. -/
theorem claim_C2_counterexample :
    (move_forward stackedPairState 0 1 none).toOption.map
        (fun s => (get_winners s, s.track)) = some ([0], [[], [1], [0]]) ∧
    (sim_step stackedPairState 0 true true ⟨fun _ => 0, 0⟩).toOption.map
        (fun r => r.1.track) = some [[], [], [0, 1]] ∧
    ([[], [], [0, 1]] : List (List Nat)) ≠ [[], [1], [0]] := by
  refine ⟨rfl, rfl, by decide⟩

/-- C2 (amended): the terminal condition is checked once per completed
turn, not after every pad movement: (1) calling `one_round` when winners
already exist is a no-op returning the existing winners with no pad
mutation; (2) in the turn loop, as soon as a turn ends with a non-empty
finish pad, the remaining turns are skipped and the finish-pad occupants
are returned as the round's winners (all actions of that turn having been
applied, so multiple competitors may reach the finish in one turn). -/
theorem claim_C2_amended_turn_level_halt :
    (∀ (s : SimState) (rng : Rng), get_winners s ≠ [] →
      one_round s rng = .ok (s, get_winners s, rng)) ∧
    (∀ (s s' : SimState) (rng rng' : Rng) (p r b : Nat)
      (rest : List (Nat × Nat × Nat)),
      run_turn s p r b rng = .ok (s', rng') → get_winners s' ≠ [] →
      run_turns s rng ((p, r, b) :: rest) = .ok (s', get_winners s', rng')) := by
  constructor
  · intro s rng h
    unfold one_round
    simp [List.isEmpty_eq_false.mpr h]
  · intro s s' rng rng' p r b rest h hw
    unfold run_turns
    rw [h]
    simp [List.isEmpty_eq_false.mpr hw]

/-- Witness for C2 (amended) at concrete inputs. -/
theorem claim_C2_amended_turn_level_halt_witness :
    one_round winnerPresentState ⟨fun _ => 0, 0⟩ =
      .ok (winnerPresentState, get_winners winnerPresentState,
        ⟨fun _ => 0, 0⟩) ∧
    run_turns stackedPairState ⟨fun _ => 0, 0⟩ [(0, 1, 0)] =
      .ok (stackedPairTurnResult, get_winners stackedPairTurnResult,
        ⟨fun _ => 0, 0⟩) := by
  constructor
  · exact claim_C2_amended_turn_level_halt.1 winnerPresentState _ (by decide)
  · exact claim_C2_amended_turn_level_halt.2 stackedPairState
      stackedPairTurnResult _ _ 0 1 0 [] rfl (by decide)

/-- Success characterization of `move_player_to`: when the player is on
its recorded pad and the target index is in range, the move removes it
from its pad, appends/inserts it into the target pad, and updates its
recorded position. -/
theorem move_player_to_ok (s : SimState) (pid np : Nat) (sp : Option Nat)
    (pad dest : List Nat)
    (hpad : s.track.get? (s.pstate pid).position = some pad)
    (hmem : pid ∈ pad)
    (hdest : (s.track.set (s.pstate pid).position (pad.erase pid)).get? np =
      some dest) :
    move_player_to s pid np sp = .ok
      { s with
        track := (s.track.set (s.pstate pid).position (pad.erase pid)).set np
          (pyPlaceIn dest sp pid)
        pstate := fun q =>
          if q = pid then { s.pstate pid with position := np }
          else s.pstate q } := by
  unfold move_player_to pyRemoveFirst
  rw [hpad]
  simp only [List.get?_eq_getElem?] at hdest
  cases sp <;> simp [hmem, hdest, pyPlaceIn]

/-- A successful optional lookup implies the index is in range. -/
theorem lt_length_of_get?_eq_some {α : Type} {l : List α} {n : Nat} {a : α}
    (h : l.get? n = some a) : n < l.length := by
  by_contra hn
  rw [List.get?_eq_none.mpr (by omega)] at h
  exact Option.noConfusion h

/-- Effects of a successful one-pad forward move (`move_forward` with
`step_size = 1` and no insertion index): the player leaves its pad and is
appended to the next pad, its recorded position advances by one, and
nothing else changes. -/
theorem move_forward_ok_facts (s : SimState) (pid : Nat) (pad dest : List Nat)
    (hpad : s.track.get? (s.pstate pid).position = some pad)
    (hmem : pid ∈ pad)
    (hdest : s.track.get? ((s.pstate pid).position + 1) = some dest) :
    ∃ t, move_forward s pid 1 none = .ok t ∧
      (∀ q, q ≠ pid → t.pstate q = s.pstate q) ∧
      t.pstate pid = { s.pstate pid with
        position := (s.pstate pid).position + 1 } ∧
      t.track.get? (s.pstate pid).position = some (pad.erase pid) ∧
      t.track.get? ((s.pstate pid).position + 1) = some (dest ++ [pid]) ∧
      (∀ j, j ≠ (s.pstate pid).position → j ≠ (s.pstate pid).position + 1 →
        t.track.get? j = s.track.get? j) ∧
      t.track.length = s.track.length ∧
      t.players = s.players ∧
      t.next_round_order = s.next_round_order := by
  have hposlt := lt_length_of_get?_eq_some hpad
  have hdlt := lt_length_of_get?_eq_some hdest
  have hdest' : (s.track.set (s.pstate pid).position
      (pad.erase pid)).get? ((s.pstate pid).position + 1) = some dest := by
    rw [List.get?_set_ne _ _ (by omega)]
    exact hdest
  refine ⟨_, move_player_to_ok s pid _ none pad dest hpad hmem hdest', ?_, ?_, ?_, ?_, ?_, ?_, ?_, ?_⟩
  · intro q hq
    simp [hq]
  · simp
  · rw [List.get?_set_ne _ _ (by omega)]
    rw [List.get?_set_eq_of_lt _ hposlt]
  · rw [List.get?_set_eq_of_lt]
    · rfl
    · rw [List.length_set]
      exact hdlt
  · intro j hj1 hj2
    rw [List.get?_set_ne _ _ (by omega), List.get?_set_ne _ _ (by omega)]
  · simp
  · rfl
  · rfl

set_option maxHeartbeats 1000000 in
theorem claim_C6_amended_carrier_step (s : SimState) (c x y : Nat)
    (d : List Nat) (rng : Rng) (lastStep : Bool)
    (hcube : (s.pstate c).cube = .cantarella)
    (hexp : (s.pstate c).ability_expended = false)
    (hpad : s.track.get? (s.pstate c).position = some [x, y, c])
    (hdest : s.track.get? ((s.pstate c).position + 1) = some d)
    (hxc : x ≠ c) (hyc : y ≠ c) (hxy : x ≠ y)
    (hpx : (s.pstate x).position = (s.pstate c).position)
    (hpy : (s.pstate y).position = (s.pstate c).position) :
    (sim_step s c false lastStep rng).toOption.map
        (fun r => (r.1.track.get? ((s.pstate c).position + 1),
          (r.1.pstate c).position, (r.1.pstate x).position,
          (r.1.pstate y).position, (r.1.pstate c).ability_expended)) =
      some (some (d ++ [y, x, c]),
        (s.pstate c).position + 1, (s.pstate c).position + 1,
        (s.pstate c).position + 1, true) := by
  have hgs : get_stacked_players s c = some ([x, y], []) := by
    unfold get_stacked_players
    rw [hpad]
    simp [List.indexOf_cons, hxc, hyc]
  obtain ⟨stF, hcd, hstpos, hstexp⟩ :
      ∃ stF : PState,
        calc_dispatch (s.pstate c) c 1 [x, y] [] false lastStep rng =
          ([(y, 1, none), (x, 1, none), (c, 1, none)], stF, rng) ∧
        stF.position = (s.pstate c).position ∧
        stF.ability_expended = true := by
    unfold calc_dispatch CantarellaCube.calculate_actions
    rw [hcube]
    cases lastStep <;> simp [hexp] <;> exact ⟨_, rfl, rfl, rfl⟩
  -- player objects seen through the flag update on c
  have hsy : (setP s c stF).pstate y = s.pstate y := by simp [setP, hyc]
  have hsx : (setP s c stF).pstate x = s.pstate x := by simp [setP, hxc]
  have hsc : (setP s c stF).pstate c = stF := by simp [setP]
  -- first action: y moves one pad forward
  obtain ⟨t1, hm1, t1o, t1pid, t1g0, t1g1, t1go, t1len, t1pl, t1q⟩ :=
    move_forward_ok_facts (setP s c stF) y [x, y, c] d
      (by rw [hsy, hpy]; exact hpad) (by simp) (by rw [hsy, hpy]; exact hdest)
  rw [hsy, hpy] at t1pid t1g0 t1g1 t1go
  -- second action: x moves one pad forward
  obtain ⟨t2, hm2, t2o, t2pid, t2g0, t2g1, t2go, t2len, t2pl, t2q⟩ :=
    move_forward_ok_facts t1 x ([x, y, c].erase y) (d ++ [y])
      (by rw [t1o x (Ne.symm (fun h => hxy h.symm)), hsx, hpx]; exact t1g0)
      (by simp [List.erase_cons, hxy])
      (by rw [t1o x (Ne.symm (fun h => hxy h.symm)), hsx, hpx]; exact t1g1)
  rw [t1o x (Ne.symm (fun h => hxy h.symm)), hsx, hpx] at t2pid t2g0 t2g1 t2go
  -- third action: c moves one pad forward
  have ht2c : t2.pstate c = stF := by
    rw [t2o c (Ne.symm hxc), t1o c (Ne.symm hyc), hsc]
  obtain ⟨t3, hm3, t3o, t3pid, t3g0, t3g1, t3go, t3len, t3pl, t3q⟩ :=
    move_forward_ok_facts t2 c (([x, y, c].erase y).erase x) (d ++ [y] ++ [x])
      (by rw [ht2c, hstpos]; exact t2g0)
      (by simp [List.erase_cons, hxy])
      (by rw [ht2c, hstpos]; exact t2g1)
  rw [ht2c, hstpos] at t3pid t3g0 t3g1 t3go
  -- assemble the step
  unfold sim_step
  rw [hgs]
  simp only []
  rw [hcd]
  simp only []
  unfold apply_actions
  rw [hm1]
  simp only []
  unfold apply_actions
  rw [hm2]
  simp only []
  unfold apply_actions
  rw [hm3]
  simp only []
  unfold apply_actions
  simp only [Except.toOption, Option.map]
  rw [t3g1]
  rw [t3pid]
  rw [t3o x hxc, t2pid]
  rw [t3o y hyc, t2o y (fun h => hxy h.symm), t1pid]
  simp [List.append_assoc, hstexp]

/-- C6: counter-evidence for "starts a turn with exactly two competitors
below it ... after its first non-first step all three occupy the same new
pad in unchanged relative order and the one-shot flag is expended".  The
Carrier starts its turn with `below = [1, 2]` and the flag unused, but
the first step uses the default behaviour (carrying only `above`), so
after the first non-first step of a two-step turn the Carrier is alone on
pad 2, players 1 and 2 are still on pad 0, and the flag is unexpended:
the carry triggers on the stack occupied at a non-first step, not on the
turn-start stack. -/
theorem claim_C6_counterexample :
    (get_stacked_players carrierTurnStartState 0).map (fun p => p.1) =
      some [1, 2] ∧
    (carrierTurnStartState.pstate 0).ability_expended = false ∧
    (run_turn carrierTurnStartState 0 2 0 ⟨fun _ => 0, 0⟩).toOption.map
        (fun r => (r.1.track,
          (r.1.pstate 0).position, (r.1.pstate 1).position,
          (r.1.pstate 2).position, (r.1.pstate 0).ability_expended)) =
      some ([[1, 2], [], [0], []], 2, 0, 0, false) := by
  refine ⟨rfl, rfl, rfl⟩

/-- Witness for C6 (amended) at a concrete state: Cantarella stacked on
`[1, 2]` at a non-first step carries both to the next pad in reversed
order beneath her and expends the flag. -/
theorem claim_C6_amended_carrier_step_witness :
    (sim_step carrierStackedState 0 false false ⟨fun _ => 0, 0⟩).toOption.map
        (fun r =>
          (r.1.track.get? ((carrierStackedState.pstate 0).position + 1),
            (r.1.pstate 0).position, (r.1.pstate 1).position,
            (r.1.pstate 2).position, (r.1.pstate 0).ability_expended)) =
      some (some ([] ++ [2, 1, 0]),
        (carrierStackedState.pstate 0).position + 1,
        (carrierStackedState.pstate 0).position + 1,
        (carrierStackedState.pstate 0).position + 1, true) :=
  claim_C6_amended_carrier_step carrierStackedState 0 1 2 [] ⟨fun _ => 0, 0⟩
    false rfl rfl rfl rfl (by decide) (by decide) (by decide) rfl rfl

/-- C9: with the recorded position and the target pad index in range,
`move_player_to` fails with the invariant-violation error exactly when
the competitor is not on the pad its recorded position points to; when
the competitor is there, the operation succeeds, removing it from its
current pad, appending it to the target pad (or inserting it at the
given stack index), and updating its recorded position to the target
pad. -/
theorem claim_C9_place (s : SimState) (pid np : Nat) (sp : Option Nat)
    (pad : List Nat)
    (hpad : s.track.get? (s.pstate pid).position = some pad)
    (hnp : np < s.track.length) :
    (move_player_to s pid np sp = .error .invariantViolation ↔ pid ∉ pad) ∧
    (pid ∈ pad → move_player_to s pid np sp = .ok
      { s with
        track := (s.track.set (s.pstate pid).position (pad.erase pid)).set np
          (match sp with
            | none => ((s.track.set (s.pstate pid).position
                (pad.erase pid)).getD np []) ++ [pid]
            | some i => pyInsertAt ((s.track.set (s.pstate pid).position
                (pad.erase pid)).getD np []) i pid)
        pstate := fun q =>
          if q = pid then { s.pstate pid with position := np }
          else s.pstate q }) := by
  have hdest : (s.track.set (s.pstate pid).position (pad.erase pid)).get? np =
      some ((s.track.set (s.pstate pid).position (pad.erase pid)).getD np []) := by
    have hlt : np < (s.track.set (s.pstate pid).position
        (pad.erase pid)).length := by
      rw [List.length_set]
      exact hnp
    rw [List.getD_eq_get?]
    cases h : (s.track.set (s.pstate pid).position (pad.erase pid)).get? np with
    | none =>
      rw [List.get?_eq_none] at h
      omega
    | some a => rfl
  have hok := fun hmem =>
    move_player_to_ok s pid np sp pad _ hpad hmem hdest
  constructor
  · constructor
    · intro h hmem
      rw [hok hmem] at h
      exact Except.noConfusion h
    · intro hmem
      unfold move_player_to pyRemoveFirst
      rw [hpad]
      simp [hmem]
  · exact hok

/-- Witness for C9 at concrete inputs: the corrupted player raises the
invariant-violation error; the consistent player is moved, inserted at
the requested stack index, with its recorded position updated. -/
theorem claim_C9_place_witness :
    move_player_to mismatchState 1 1 none = .error .invariantViolation ∧
    (move_player_to mismatchState 0 2 (some 0)).toOption.map
      (fun t => ((t.pstate 0).position, t.track)) = some (2, [[1], [], [0]]) := by
  constructor
  · exact ((claim_C9_place mismatchState 1 1 none [] rfl
      (by decide)).1).mpr (by decide)
  · rw [(claim_C9_place mismatchState 0 2 (some 0) [0, 1] rfl
      (by decide)).2 (by decide)]
    rfl

/-- The fuel-indexed sampler returns a permutation of its input whenever
the fuel covers the length. -/
theorem sample_perm_fuel_perm : ∀ (fuel : Nat) (l : List Nat) (rng : Rng),
    l.length ≤ fuel → (sample_perm_fuel fuel rng l).1.Perm l
  | 0, l, _, h => by
    have hl : l = [] := List.eq_nil_of_length_eq_zero (Nat.le_zero.mp h)
    subst hl
    simp [sample_perm_fuel]
  | _ + 1, [], _, _ => by simp [sample_perm_fuel]
  | fuel + 1, x :: xs, rng, h => by
    rw [sample_perm_fuel]
    simp only []
    have hlt : (rng.next.1 % (x :: xs).length) < (x :: xs).length :=
      Nat.mod_lt _ (by simp)
    have hlen : ((x :: xs).eraseIdx (rng.next.1 % (x :: xs).length)).length ≤
        fuel := by
      simp only [List.length_eraseIdx, List.length_cons] at hlt h ⊢
      split
      all_goals omega
    have ih := sample_perm_fuel_perm fuel
      ((x :: xs).eraseIdx (rng.next.1 % (x :: xs).length)) rng.next.2 hlen
    refine (ih.cons _).trans ?_
    rw [List.getD_eq_getElem _ _ hlt]
    exact ((List.erase_getElem hlt).symm.cons _).trans
      (List.perm_cons_erase (List.getElem_mem _)).symm

/-- The sampled round order is a permutation of the roster. -/
theorem sample_perm_perm (rng : Rng) (l : List Nat) :
    (sample_perm rng l).1.Perm l :=
  sample_perm_fuel_perm l.length l rng (Nat.le_refl _)

/-- Applying the pending overrides preserves being a permutation of the
roster, and always succeeds when every override references a roster
member. -/
theorem roll_round_order_perm : ∀ (modify : List (Nat × Option Nat))
    (samp players : List Nat), samp.Perm players →
    (∀ p op, (p, op) ∈ modify → p ∈ players) →
    ∃ o, roll_round_order samp modify = some o ∧ o.Perm players
  | [], samp, _, hperm, _ => ⟨samp, rfl, hperm⟩
  | (p, pos) :: rest, samp, players, hperm, hmem => by
    have hp : p ∈ samp := hperm.symm.subset (hmem p pos (by simp))
    have herase : (p :: samp.erase p).Perm players :=
      (List.perm_cons_erase hp).symm.trans hperm
    rw [roll_round_order]
    simp only [hp, if_pos]
    cases pos with
    | none =>
      exact roll_round_order_perm rest _ players
        ((List.perm_append_singleton _ _).trans herase)
        (fun q oq hq => hmem q oq (by simp [hq]))
    | some i =>
      have hins : (pyInsertAt (samp.erase p) i p).Perm players := by
        unfold pyInsertAt
        exact List.perm_middle.trans
          (by rw [List.take_append_drop]; exact herase)
      exact roll_round_order_perm rest _ players hins
        (fun q oq hq => hmem q oq (by simp [hq]))

/-- C8: the round order used by a round is a permutation of the roster
(no duplicates, no omissions), including after applying the pending
next-round overrides (explicit index insertion or append-to-end), and
the override queue is cleared in the state the round proceeds with:
when every pending override references a roster member, `begin_round`
succeeds, the produced order is a permutation of `self.players`, and the
resulting state's `next_round_order` is empty. -/
theorem claim_C8_round_order_permutation (s : SimState) (rng : Rng)
    (hq : ∀ p op, (p, op) ∈ s.next_round_order → p ∈ s.players) :
    (begin_round s rng).isSome = true ∧
    ∀ o s' rng', begin_round s rng = some (o, s', rng') →
      o.Perm s.players ∧ s'.next_round_order = [] := by
  obtain ⟨o, ho, hperm⟩ := roll_round_order_perm s.next_round_order
    (sample_perm rng s.players).1 s.players
    (sample_perm_perm rng s.players) hq
  constructor
  · unfold begin_round
    simp [ho]
  · intro o' s' rng' h
    unfold begin_round at h
    simp only [ho, Option.map_some', Option.some.injEq, Prod.mk.injEq] at h
    obtain ⟨h1, h2, _⟩ := h
    subst h1
    subst h2
    exact ⟨hperm, rfl⟩

/-- Witness for C8 at a concrete input: the all-zero random stream
samples `[0, 1]`, the pending override moves player 0 to the end giving
the order `[1, 0]` — a permutation of the roster — and the override
queue of the resulting state is empty. -/
theorem claim_C8_round_order_permutation_witness :
    ([1, 0] : List Nat).Perm overrideQueueState.players ∧
    ({ overrideQueueState with next_round_order := [] } :
      SimState).next_round_order = [] := by
  have h := claim_C8_round_order_permutation overrideQueueState
    ⟨fun _ => 0, 0⟩ (by
      intro p op hmem
      simp only [overrideQueueState, List.mem_singleton, Prod.mk.injEq] at hmem
      simp [overrideQueueState, hmem.1])
  exact h.2 [1, 0] { overrideQueueState with next_round_order := [] }
    ⟨fun _ => 0, 2⟩ rfl

/-- Additive effect of `List.set` on a mapped sum (no truncated
subtraction). -/
theorem sum_map_set (f : List Nat → Nat) :
    ∀ (L : List (List Nat)) (i : Nat) (a b : List Nat),
    L.get? i = some b →
    ((L.set i a).map f).sum + f b = (L.map f).sum + f a
  | [], i, _, _, h => by simp at h
  | c :: L, 0, a, b, h => by
    simp at h
    subst h
    simp [Nat.add_comm, Nat.add_left_comm]
  | c :: L, i + 1, a, b, h => by
    simp only [List.get?_cons_succ] at h
    have ih := sum_map_set f L i a b h
    simp only [List.set_cons_succ, List.map_cons, List.sum_cons]
    omega

/-- Membership in the Python insert. -/
theorem mem_pyInsertAt (q x : Nat) (l : List Nat) (i : Nat) :
    q ∈ pyInsertAt l i x ↔ q = x ∨ q ∈ l := by
  unfold pyInsertAt
  rw [List.perm_middle.mem_iff]
  rw [List.mem_cons, List.take_append_drop]

/-- Count in the Python insert. -/
theorem count_pyInsertAt (q x : Nat) (l : List Nat) (i : Nat) :
    (pyInsertAt l i x).count q = l.count q + if q = x then 1 else 0 := by
  unfold pyInsertAt
  rw [List.perm_middle.count_eq, List.count_cons, List.take_append_drop]
  by_cases h : q = x
  · subst h
    simp
  · simp [h, Ne.symm h]

/-- Inversion of a successful `move_player_to`. -/
theorem move_player_to_ok_inv {s t : SimState} {pid np : Nat}
    {sp : Option Nat} (hm : move_player_to s pid np sp = .ok t) :
    ∃ pad dest, s.track.get? (s.pstate pid).position = some pad ∧
      pid ∈ pad ∧
      (s.track.set (s.pstate pid).position (pad.erase pid)).get? np =
        some dest ∧
      t = { s with
        track := (s.track.set (s.pstate pid).position (pad.erase pid)).set np
          (pyPlaceIn dest sp pid)
        pstate := fun q =>
          if q = pid then { s.pstate pid with position := np }
          else s.pstate q } := by
  cases sp with
  | none => ?_
  | some ins => ?_
  all_goals
  · cases hpad : s.track.get? (s.pstate pid).position with
    | none =>
      exfalso
      unfold move_player_to at hm
      rw [hpad] at hm
      exact Except.noConfusion hm
    | some pad =>
      unfold move_player_to pyRemoveFirst at hm
      rw [hpad] at hm
      simp only [] at hm
      by_cases hmem : pid ∈ pad
      · rw [if_pos hmem] at hm
        simp only [] at hm
        cases hdest : (s.track.set (s.pstate pid).position
            (pad.erase pid)).get? np with
        | none =>
          exfalso
          rw [List.get?_eq_getElem?] at hdest
          simp only [List.get?_eq_getElem?, hdest] at hm
          exact Except.noConfusion hm
        | some dest =>
          rw [List.get?_eq_getElem?] at hdest
          simp only [List.get?_eq_getElem?, hdest] at hm
          injection hm with h
          subst h
          refine ⟨pad, dest, rfl, hmem, ?_, rfl⟩
          rw [List.get?_eq_getElem?]
          exact hdest
      · exfalso
        rw [if_neg hmem] at hm
        simp only [] at hm
        exact Except.noConfusion hm

/-- An element's count on one pad is bounded by its count on the whole
track. -/
theorem count_pad_le_flatten (x : Nat) (L : List (List Nat)) (i : Nat)
    (pad : List Nat) (h : L.get? i = some pad) :
    pad.count x ≤ L.flatten.count x := by
  rw [List.count_flatten]
  exact List.le_sum_of_mem (List.mem_map.mpr ⟨pad, List.get?_mem h, rfl⟩)

/-- A successful `move_player_to` preserves the track invariant. -/
theorem trackInv_move_ok {s t : SimState} {pid np : Nat} {sp : Option Nat}
    (hinv : TrackInv s) (hm : move_player_to s pid np sp = .ok t) :
    TrackInv t := by
  obtain ⟨pad, dest, hpad, hmem, hdest, ht⟩ := move_player_to_ok_inv hm
  obtain ⟨hnd, hperm, hpos⟩ := hinv
  subst ht
  have hposlt := lt_length_of_get?_eq_some hpad
  have hnplt : np < s.track.length := by
    have := lt_length_of_get?_eq_some hdest
    rwa [List.length_set] at this
  have hcnt1 : ∀ q ∈ s.players, s.track.flatten.count q = 1 := by
    intro q hq
    rw [hperm.count_eq]
    exact List.count_eq_one_of_mem hnd hq
  have hdest' : ∀ x : Nat, (pyPlaceIn dest sp pid).count x =
      dest.count x + if x = pid then 1 else 0 := by
    intro x
    unfold pyPlaceIn
    cases sp with
    | none =>
      rw [List.count_append]
      simp [List.count_singleton', eq_comm]
    | some j => exact count_pyInsertAt x pid dest j
  have hmemPlace : ∀ q : Nat, q ∈ pyPlaceIn dest sp pid ↔ q = pid ∨ q ∈ dest := by
    intro q
    unfold pyPlaceIn
    cases sp with
    | none => simp [or_comm]
    | some j => exact mem_pyInsertAt q pid dest j
  refine ⟨hnd, ?_, ?_⟩
  · refine (List.perm_iff_count.mpr ?_).trans hperm
    intro x
    dsimp only
    have h1 := sum_map_set (List.count x) s.track (s.pstate pid).position
      (pad.erase pid) pad hpad
    have h2 := sum_map_set (List.count x)
      (s.track.set (s.pstate pid).position (pad.erase pid)) np
      (pyPlaceIn dest sp pid) dest hdest
    rw [List.count_flatten, List.count_flatten]
    rw [List.count_erase] at h1
    rw [hdest' x] at h2
    by_cases hx : x = pid
    · subst hx
      have hge : 1 ≤ pad.count x := List.one_le_count_iff.mpr hmem
      rw [if_pos (beq_self_eq_true x)] at h1
      rw [if_pos rfl] at h2
      omega
    · have hbe : ¬((pid == x) = true) := by
        simp only [beq_iff_eq]
        exact fun hh => hx hh.symm
      rw [if_neg hbe] at h1
      rw [if_neg hx] at h2
      omega
  · intro q hq i pad2 hget hmemq
    dsimp only at hget hmemq ⊢
    have hq1 : s.track.flatten.count q = 1 := hcnt1 q hq
    by_cases hqpid : q = pid
    · subst hqpid
      rw [if_pos rfl]
      dsimp only
      by_cases hi : i = np
      · exact hi.symm
      · exfalso
        rw [List.get?_set_ne _ _ (fun hh => hi hh.symm)] at hget
        have hcp : pad.count q = 1 :=
          Nat.le_antisymm
            (hq1 ▸ count_pad_le_flatten q s.track _ pad hpad)
            (List.one_le_count_iff.mpr hmem)
        by_cases hip : i = (s.pstate q).position
        · subst hip
          rw [List.get?_set_eq_of_lt _ hposlt] at hget
          injection hget with hg
          subst hg
          have hc0 : (pad.erase q).count q = 0 := by
            rw [List.count_erase]
            simp [hcp]
          exact absurd (List.one_le_count_iff.mpr hmemq) (by omega)
        · rw [List.get?_set_ne _ _ (fun hh => hip hh.symm)] at hget
          exact hip (hpos q hq i pad2 hget hmemq).symm
    · rw [if_neg hqpid]
      by_cases hi : i = np
      · rw [hi] at hget ⊢
        rw [List.get?_set_eq_of_lt] at hget
        on_goal 2 => rw [List.length_set]; exact hnplt
        injection hget with hg
        subst hg
        have hqdest : q ∈ dest := by
          rcases (hmemPlace q).mp hmemq with h | h
          · exact absurd h hqpid
          · exact h
        by_cases hip : np = (s.pstate pid).position
        · rw [hip, List.get?_set_eq_of_lt _ hposlt] at hdest
          injection hdest with hd
          subst hd
          rw [hip]
          exact hpos q hq _ pad hpad (List.mem_of_mem_erase hqdest)
        · rw [List.get?_set_ne _ _ (fun hh => hip hh.symm)] at hdest
          exact hpos q hq np dest hdest hqdest
      · rw [List.get?_set_ne _ _ (fun hh => hi hh.symm)] at hget
        by_cases hip : i = (s.pstate pid).position
        · subst hip
          rw [List.get?_set_eq_of_lt _ hposlt] at hget
          injection hget with hg
          subst hg
          exact hpos q hq _ pad hpad (List.mem_of_mem_erase hmemq)
        · rw [List.get?_set_ne _ _ (fun hh => hip hh.symm)] at hget
          exact hpos q hq i pad2 hget hmemq

/-- A successful `move_player_to` only changes a recorded position, so
Camellya flags are untouched. -/
theorem camOff_move_ok {s t : SimState} {pid np : Nat} {sp : Option Nat}
    (hc : CamellyaOff s) (hm : move_player_to s pid np sp = .ok t) :
    CamellyaOff t := by
  obtain ⟨pad, dest, -, -, -, ht⟩ := move_player_to_ok_inv hm
  subst ht
  intro q hq
  dsimp only at hq ⊢
  by_cases hqp : q = pid
  · rw [if_pos hqp] at hq ⊢
    exact hc pid (by simpa [hqp] using hq)
  · rw [if_neg hqp] at hq ⊢
    exact hc q hq

/-- A successful move preserves the combined invariant. -/
theorem stepInvs_move_ok {s t : SimState} {pid np : Nat} {sp : Option Nat}
    (h : StepInvs s) (hm : move_player_to s pid np sp = .ok t) :
    StepInvs t :=
  ⟨trackInv_move_ok h.1 hm, camOff_move_ok h.2 hm⟩

/-- Applying a list of actions preserves the combined invariant. -/
theorem stepInvs_apply_actions :
    ∀ (acts : List (Nat × Nat × Option Nat)) {s t : SimState},
    StepInvs s → apply_actions s acts = .ok t → StepInvs t
  | [], _, _, h, hm => by
    rw [apply_actions] at hm
    injection hm with h'
    subst h'
    exact h
  | (pid, sz, sp) :: rest, s, t, h, hm => by
    rw [apply_actions] at hm
    cases hmv : move_forward s pid sz sp with
    | error e =>
      rw [hmv] at hm
      exact Except.noConfusion hm
    | ok s' =>
      rw [hmv] at hm
      simp only [] at hm
      exact stepInvs_apply_actions rest (stepInvs_move_ok h hmv) hm

/-- Replacing one player object preserves the combined invariant when the
replacement keeps the position and cube fields, and keeps a Camellya flag
off. -/
theorem stepInvs_setP {s : SimState} {pid : Nat} {st : PState}
    (h : StepInvs s)
    (hpos : st.position = (s.pstate pid).position)
    (hcube : st.cube = (s.pstate pid).cube)
    (hcam : st.cube = .camellya → st.ability_active = false) :
    StepInvs (setP s pid st) := by
  obtain ⟨⟨hnd, hperm, hposition⟩, hc⟩ := h
  refine ⟨⟨hnd, hperm, ?_⟩, ?_⟩
  · intro q hq i pad hget hmemq
    simp only [setP] at hget hmemq ⊢
    by_cases hqp : q = pid
    · subst hqp
      rw [if_pos rfl, hpos]
      exact hposition q hq i pad hget hmemq
    · rw [if_neg hqp]
      exact hposition q hq i pad hget hmemq
  · intro q hq
    simp only [setP] at hq ⊢
    by_cases hqp : q = pid
    · rw [if_pos hqp] at hq ⊢
      exact hcam hq
    · rw [if_neg hqp] at hq ⊢
      exact hc q hq

/-- The player-object update performed by `calc_dispatch` keeps the
position and cube fields, and never turns an unset Camellya flag on. -/
theorem calc_dispatch_pstate_facts (st : PState) (pid sz : Nat)
    (so sb : List Nat) (f l : Bool) (rng : Rng) :
    (calc_dispatch st pid sz so sb f l rng).2.1.position = st.position ∧
    (calc_dispatch st pid sz so sb f l rng).2.1.cube = st.cube ∧
    (st.cube = .camellya → st.ability_active = false →
      (calc_dispatch st pid sz so sb f l rng).2.1.ability_active = false) := by
  unfold calc_dispatch
  cases hc : st.cube
  case cantarella =>
    unfold CantarellaCube.calculate_actions
    cases f <;> cases l <;>
      by_cases h1 : so.length < 1 <;>
        cases hexp : st.ability_expended <;>
          cases hact : st.ability_active <;>
            simp [hc, h1, hexp, hact, Player.calculate_actions]
  case jinhsi =>
    unfold JinhsiCube.calculate_actions
    cases f <;> by_cases hsb : sb.isEmpty <;>
      cases hact : st.ability_active <;>
        simp [hc, hsb, hact, Player.calculate_actions, Rng.nextBool,
          Rng.next] <;>
        split <;> simp
  case camellya =>
    unfold CamellyaCube.calculate_actions
    simp only [hc]
    cases f <;> cases hact : st.ability_active <;>
      simp [hc, hact, Player.calculate_actions, Rng.nextBool, Rng.next] <;>
      split <;> simp
  all_goals simp [hc]

/-- The player-object update performed by `roll_dispatch` keeps the
position and cube fields, and never touches a Camellya flag. -/
theorem roll_dispatch_pstate_facts (st : PState) (fi la : Bool) (rng : Rng) :
    (roll_dispatch st fi la rng).2.2.1.position = st.position ∧
    (roll_dispatch st fi la rng).2.2.1.cube = st.cube ∧
    (st.cube = .camellya → st.ability_active = false →
      (roll_dispatch st fi la rng).2.2.1.ability_active = false) := by
  unfold roll_dispatch
  cases hc : st.cube
  all_goals simp [hc]

/-- The player-object update performed by `post_round_dispatch` keeps
the position and cube fields, and never touches a Camellya flag. -/
theorem post_round_dispatch_pstate_facts (st : PState) (pid : Nat)
    (rank : Nat × Nat) (rng : Rng) :
    (post_round_dispatch st pid rank rng).1.position = st.position ∧
    (post_round_dispatch st pid rank rng).1.cube = st.cube ∧
    (st.cube = .camellya → st.ability_active = false →
      (post_round_dispatch st pid rank rng).1.ability_active = false) := by
  unfold post_round_dispatch
  cases hc : st.cube
  case cartethiya =>
    repeat' split
    all_goals simp [hc]
  all_goals simp [hc]

/-- `DerbySim.step` preserves the combined invariant. -/
theorem stepInvs_sim_step {s t : SimState} {pid : Nat} {f l : Bool}
    {rng rng' : Rng} (h : StepInvs s)
    (hm : sim_step s pid f l rng = .ok (t, rng')) : StepInvs t := by
  unfold sim_step at hm
  cases hgs : get_stacked_players s pid with
  | none =>
    rw [hgs] at hm
    exact Except.noConfusion hm
  | some p =>
    rw [hgs] at hm
    obtain ⟨so, sb⟩ := p
    simp only [] at hm
    rcases hcd : calc_dispatch (s.pstate pid) pid 1 so sb f l rng with
      ⟨actions, st', rng₂⟩
    rw [hcd] at hm
    simp only [] at hm
    have hf := calc_dispatch_pstate_facts (s.pstate pid) pid 1 so sb f l rng
    rw [hcd] at hf
    have hsp : StepInvs (setP s pid st') := by
      refine stepInvs_setP h hf.1 hf.2.1 ?_
      intro hcam
      have hcub : (s.pstate pid).cube = .camellya := by
        rw [← hf.2.1]
        exact hcam
      exact hf.2.2 hcub (h.2 pid hcub)
    cases happ : apply_actions (setP s pid st') actions with
    | error e =>
      rw [happ] at hm
      exact Except.noConfusion hm
    | ok s₂ =>
      rw [happ] at hm
      simp only [Except.ok.injEq, Prod.mk.injEq] at hm
      obtain ⟨h1, -⟩ := hm
      subst h1
      exact stepInvs_apply_actions actions hsp happ

/-- The middle steps of a turn preserve the combined invariant. -/
theorem stepInvs_run_mid_steps {pid : Nat} :
    ∀ (n : Nat) {s t : SimState} {rng rng' : Rng}, StepInvs s →
    run_mid_steps pid n s rng = .ok (t, rng') → StepInvs t
  | 0, _, _, _, _, h, hm => by
    rw [run_mid_steps] at hm
    simp only [Except.ok.injEq, Prod.mk.injEq] at hm
    obtain ⟨h1, -⟩ := hm
    subst h1
    exact h
  | n + 1, s, t, rng, rng', h, hm => by
    rw [run_mid_steps] at hm
    cases hst : sim_step s pid false false rng with
    | error e =>
      rw [hst] at hm
      exact Except.noConfusion hm
    | ok p =>
      rw [hst] at hm
      obtain ⟨s₁, rng₁⟩ := p
      exact stepInvs_run_mid_steps n (stepInvs_sim_step h hst) hm

/-- One turn preserves the combined invariant. -/
theorem stepInvs_run_turn {s t : SimState} {pid roll bonus : Nat}
    {rng rng' : Rng} (h : StepInvs s)
    (hm : run_turn s pid roll bonus rng = .ok (t, rng')) : StepInvs t := by
  rw [run_turn] at hm
  by_cases h0 :
      min (roll + bonus) (s.track.length - 1 - (s.pstate pid).position) = 0
  · rw [if_pos h0] at hm
    simp only [Except.ok.injEq, Prod.mk.injEq] at hm
    obtain ⟨h1, -⟩ := hm
    subst h1
    exact h
  · rw [if_neg h0] at hm
    by_cases h1 :
        min (roll + bonus) (s.track.length - 1 - (s.pstate pid).position) = 1
    · rw [if_pos h1] at hm
      exact stepInvs_sim_step h hm
    · rw [if_neg h1] at hm
      cases hst : sim_step s pid true false rng with
      | error e =>
        rw [hst] at hm
        exact Except.noConfusion hm
      | ok p =>
        rw [hst] at hm
        obtain ⟨s₁, rng₁⟩ := p
        simp only [] at hm
        cases h2 : run_mid_steps pid
            (min (roll + bonus) (s.track.length - 1 -
              (s.pstate pid).position) - 2) s₁ rng₁ with
        | error e =>
          rw [h2] at hm
          exact Except.noConfusion hm
        | ok p₂ =>
          rw [h2] at hm
          obtain ⟨s₂, rng₂⟩ := p₂
          simp only [] at hm
          exact stepInvs_sim_step
            (stepInvs_run_mid_steps _ (stepInvs_sim_step h hst) h2) hm

/-- The turn loop preserves the combined invariant. -/
theorem stepInvs_run_turns :
    ∀ (turns : List (Nat × Nat × Nat)) {s t : SimState}
    {w : List Nat} {rng rng' : Rng}, StepInvs s →
    run_turns s rng turns = .ok (t, w, rng') → StepInvs t
  | [], _, _, _, _, _, h, hm => by
    rw [run_turns] at hm
    simp only [Except.ok.injEq, Prod.mk.injEq] at hm
    obtain ⟨h1, -⟩ := hm
    subst h1
    exact h
  | (p, r, b) :: rest, s, t, w, rng, rng', h, hm => by
    rw [run_turns] at hm
    cases ht : run_turn s p r b rng with
    | error e =>
      rw [ht] at hm
      exact Except.noConfusion hm
    | ok pr =>
      rw [ht] at hm
      obtain ⟨s₁, rng₁⟩ := pr
      simp only [] at hm
      split at hm
      · exact stepInvs_run_turns rest (stepInvs_run_turn h ht) hm
      · simp only [Except.ok.injEq, Prod.mk.injEq] at hm
        obtain ⟨h1, -⟩ := hm
        subst h1
        exact stepInvs_run_turn h ht

/-- The invariant ignores the override queue. -/
theorem stepInvs_queue {s : SimState} (h : StepInvs s)
    (q : List (Nat × Option Nat)) :
    StepInvs { s with next_round_order := q } := h

/-- The roll loop preserves the combined invariant. -/
theorem stepInvs_roll_turns_aux (order : List Nat) :
    ∀ (ps : List Nat) (s : SimState) (rng : Rng), StepInvs s →
    StepInvs (roll_turns_aux order ps s rng).2.1
  | [], _, _, h => h
  | p :: rest, s, rng, h => by
    rw [roll_turns_aux]
    rcases hrd : roll_dispatch (s.pstate p) (order.indexOf p == 0)
        (order.indexOf p == order.length - 1) rng with ⟨b, bo, st', rng₁⟩
    simp only [hrd]
    have hf := roll_dispatch_pstate_facts (s.pstate p)
      (order.indexOf p == 0) (order.indexOf p == order.length - 1) rng
    rw [hrd] at hf
    refine stepInvs_roll_turns_aux order rest _ rng₁ ?_
    refine stepInvs_setP h hf.1 hf.2.1 ?_
    intro hcam
    have hcub : (s.pstate p).cube = .camellya := by
      rw [← hf.2.1]
      exact hcam
    exact hf.2.2 hcub (h.2 p hcub)

/-- The inner roster loop of `DerbySim.post_round` preserves the
combined invariant. -/
theorem stepInvs_derby_post_round_aux (rank : Nat × Nat) :
    ∀ (ps : List Nat) (s : SimState) (rng : Rng), StepInvs s →
    StepInvs (derby_post_round_aux rank ps s rng).1
  | [], _, _, h => h
  | p :: rest, s, rng, h => by
    rw [derby_post_round_aux]
    rcases hpd : post_round_dispatch (s.pstate p) p rank rng with
      ⟨st', acts, reqs, rng₁⟩
    simp only [hpd]
    have hf := post_round_dispatch_pstate_facts (s.pstate p) p rank rng
    rw [hpd] at hf
    refine stepInvs_derby_post_round_aux rank rest _ rng₁ ?_
    refine stepInvs_setP h hf.1 hf.2.1 ?_
    intro hcam
    have hcub : (s.pstate p).cube = .camellya := by
      rw [← hf.2.1]
      exact hcam
    exact hf.2.2 hcub (h.2 p hcub)

/-- `DerbySim.post_round` preserves the combined invariant. -/
theorem stepInvs_derby_post_round {s t : SimState} {rank : Nat × Nat}
    {rng rng' : Rng} {tr : List Nat} (h : StepInvs s)
    (hm : derby_post_round s rank rng = .ok (t, tr, rng')) : StepInvs t := by
  unfold derby_post_round at hm
  rcases haux : derby_post_round_aux rank s.players s rng with
    ⟨s₁, acts, reqs, trace, rng₁⟩
  rw [haux] at hm
  simp only [] at hm
  have h₁ : StepInvs s₁ := by
    have := stepInvs_derby_post_round_aux rank s.players s rng h
    rw [haux] at this
    exact this
  cases happ : apply_actions s₁ acts with
  | error e =>
    rw [happ] at hm
    exact Except.noConfusion hm
  | ok s₂ =>
    rw [happ] at hm
    simp only [Except.ok.injEq, Prod.mk.injEq] at hm
    obtain ⟨h1, -⟩ := hm
    subst h1
    exact stepInvs_queue (stepInvs_apply_actions acts h₁ happ) reqs

/-- The post-round phase preserves the combined invariant. -/
theorem stepInvs_post_round_phase :
    ∀ (ps : List Nat) {s t : SimState} {tr : List Nat} {rng rng' : Rng},
    StepInvs s → post_round_phase ps s rng = .ok (t, tr, rng') → StepInvs t
  | [], _, _, _, _, _, h, hm => by
    rw [post_round_phase] at hm
    simp only [Except.ok.injEq, Prod.mk.injEq] at hm
    obtain ⟨h1, -⟩ := hm
    subst h1
    exact h
  | p :: rest, s, t, tr, rng, rng', h, hm => by
    rw [post_round_phase] at hm
    cases hgs : get_stacked_players s p with
    | none =>
      rw [hgs] at hm
      exact Except.noConfusion hm
    | some pr =>
      rw [hgs] at hm
      simp only [] at hm
      cases hd : derby_post_round s (rank_of s p, s.players.length) rng with
      | error e =>
        rw [hd] at hm
        exact Except.noConfusion hm
      | ok trip =>
        rw [hd] at hm
        obtain ⟨s₁, tr₁, rng₁⟩ := trip
        simp only [] at hm
        cases hrest : post_round_phase rest s₁ rng₁ with
        | error e =>
          rw [hrest] at hm
          exact Except.noConfusion hm
        | ok trip₂ =>
          rw [hrest] at hm
          obtain ⟨s₂, tr₂, rng₂⟩ := trip₂
          simp only [Except.ok.injEq, Prod.mk.injEq] at hm
          obtain ⟨h1, -⟩ := hm
          subst h1
          exact stepInvs_post_round_phase rest
            (stepInvs_derby_post_round h hd) hrest

/-- `DerbySim.one_round` preserves the combined invariant. -/
theorem stepInvs_one_round {s t : SimState} {w : List Nat}
    {rng rng' : Rng} (h : StepInvs s)
    (hm : one_round s rng = .ok (t, w, rng')) : StepInvs t := by
  unfold one_round at hm
  by_cases hw : (!(get_winners s).isEmpty) = true
  · rw [if_pos hw] at hm
    simp only [Except.ok.injEq, Prod.mk.injEq] at hm
    obtain ⟨h1, -⟩ := hm
    subst h1
    exact h
  · rw [if_neg hw] at hm
    cases hbr : begin_round s rng with
    | none =>
      rw [hbr] at hm
      exact Except.noConfusion hm
    | some trip =>
      rw [hbr] at hm
      obtain ⟨order, s₀, rng₀⟩ := trip
      simp only [] at hm
      have hs₀ : StepInvs s₀ := by
        unfold begin_round at hbr
        simp only [Option.map_eq_some'] at hbr
        obtain ⟨o, -, heq2⟩ := hbr
        injection heq2 with ha hb
        injection hb with hb1 hb2
        rw [← hb1]
        exact stepInvs_queue h []
      rcases hrt : roll_turns s₀ order rng₀ with ⟨turns, s₁, rng₁⟩
      rw [hrt] at hm
      simp only [] at hm
      have hs₁ : StepInvs s₁ := by
        have hh := stepInvs_roll_turns_aux order order s₀ rng₀ hs₀
        unfold roll_turns at hrt
        rw [hrt] at hh
        exact hh
      cases hts : run_turns s₁ rng₁ turns with
      | error e =>
        rw [hts] at hm
        exact Except.noConfusion hm
      | ok trip₂ =>
        rw [hts] at hm
        obtain ⟨s₂, w₂, rng₂⟩ := trip₂
        simp only [] at hm
        have hs₂ : StepInvs s₂ := stepInvs_run_turns turns hs₁ hts
        by_cases hw₂ : w₂.isEmpty = true
        · rw [if_pos hw₂] at hm
          cases hpp : post_round_phase s₂.players s₂ rng₂ with
          | error e =>
            rw [hpp] at hm
            exact Except.noConfusion hm
          | ok trip₃ =>
            rw [hpp] at hm
            obtain ⟨s₃, tr₃, rng₃⟩ := trip₃
            simp only [Except.ok.injEq, Prod.mk.injEq] at hm
            obtain ⟨h1, -⟩ := hm
            subst h1
            exact stepInvs_post_round_phase s₂.players hs₂ hpp
        · rw [if_neg hw₂] at hm
          simp only [Except.ok.injEq, Prod.mk.injEq] at hm
          obtain ⟨h1, -⟩ := hm
          subst h1
          exact hs₂

/-- Setting the element right after a prefix. -/
theorem set_append_length {α : Type} (a : α) :
    ∀ (l₁ l₂ : List α), (l₁ ++ l₂).set l₁.length a = l₁ ++ l₂.set 0 a
  | [], l₂ => by simp
  | x :: xs, l₂ => by
    simp only [List.cons_append, List.length_cons, List.set_cons_succ]
    rw [set_append_length a xs l₂]

/-- The group-assignment loop writes the groups as a prefix over an
empty track. -/
theorem assign_groups_replicate :
    ∀ (gs : List (List Nat)) (P : List (List Nat)) (n : Nat),
    gs.length ≤ n →
    assign_groups (P ++ List.replicate n []) gs P.length =
      P ++ gs ++ List.replicate (n - gs.length) []
  | [], P, n, _ => by simp [assign_groups]
  | g :: gs, P, n, h => by
    rw [assign_groups]
    cases n with
    | zero => simp at h
    | succ m =>
      have hrep : List.replicate (m + 1) ([] : List Nat) =
          [] :: List.replicate m [] := rfl
      rw [hrep, set_append_length, List.set_cons_zero]
      have : (P ++ [g]).length = P.length + 1 := by simp
      calc assign_groups (P ++ g :: List.replicate m []) gs (P.length + 1)
          = assign_groups ((P ++ [g]) ++ List.replicate m []) gs
            (P ++ [g]).length := by rw [this, List.append_assoc]; rfl
        _ = (P ++ [g]) ++ gs ++ List.replicate (m - gs.length) [] :=
            assign_groups_replicate gs (P ++ [g]) m (by simpa using h)
        _ = P ++ (g :: gs) ++ List.replicate (m + 1 - (gs.length + 1)) [] := by
            simp [List.append_assoc]

/-- Pointwise characterization of `set_positions`. -/
theorem set_positions_eq (pos : Nat) :
    ∀ (l : List Nat) (pstate : Nat → PState) (q : Nat),
    set_positions pstate pos l q =
      if q ∈ l then { pstate q with position := pos } else pstate q
  | [], _, q => by simp [set_positions]
  | p :: rest, pstate, q => by
    rw [set_positions]
    rw [set_positions_eq pos rest]
    by_cases hqp : q = p <;> by_cases hq : q ∈ rest <;>
      simp [hqp, hq]

/-- Players outside every group keep their object state. -/
theorem assign_positions_not_mem :
    ∀ (gs : List (List Nat)) (pstate : Nat → PState) (i q : Nat),
    q ∉ gs.flatten → assign_positions pstate gs i q = pstate q
  | [], _, _, _, _ => rfl
  | g :: gs, pstate, i, q, h => by
    rw [assign_positions]
    rw [assign_positions_not_mem gs _ (i + 1) q
      (by simp only [List.flatten_cons, List.mem_append] at h; simp; intro x hx; exact fun hqx => h (Or.inr (List.mem_flatten.mpr ⟨x, hx, hqx⟩)))]
    rw [set_positions_eq]
    rw [if_neg (by simp only [List.flatten_cons, List.mem_append] at h; exact fun hqg => h (Or.inl hqg))]

/-- A player found in exactly one group is placed on that group's pad. -/
theorem assign_positions_mem :
    ∀ (gs : List (List Nat)) (pstate : Nat → PState) (i q j : Nat)
    (g : List Nat), gs.get? j = some g → q ∈ g → gs.flatten.count q = 1 →
    assign_positions pstate gs i q = { pstate q with position := i + j }
  | [], _, _, _, j, g, hg, _, _ => by simp at hg
  | g₀ :: gs, pstate, i, q, 0, g, hg, hq, hcnt => by
    injection hg with hg
    subst hg
    rw [assign_positions]
    have hnot : q ∉ gs.flatten := by
      simp only [List.flatten_cons, List.count_append] at hcnt
      have := List.one_le_count_iff.mpr hq
      intro hmem
      have := List.one_le_count_iff.mpr hmem
      omega
    rw [assign_positions_not_mem gs _ (i + 1) q hnot]
    rw [set_positions_eq, if_pos hq]
    simp
  | g₀ :: gs, pstate, i, q, j + 1, g, hg, hq, hcnt => by
    simp only [List.get?_cons_succ] at hg
    have hflat : q ∈ gs.flatten :=
      List.mem_flatten.mpr ⟨g, List.get?_mem hg, hq⟩
    have hnot0 : q ∉ g₀ := by
      simp only [List.flatten_cons, List.count_append] at hcnt
      have := List.one_le_count_iff.mpr hflat
      intro hmem
      have := List.one_le_count_iff.mpr hmem
      omega
    rw [assign_positions]
    rw [assign_positions_mem gs _ (i + 1) q j g hg hq
      (by simp only [List.flatten_cons, List.count_append] at hcnt
          have := List.count_eq_zero_of_not_mem hnot0
          omega)]
    rw [set_positions_eq, if_neg hnot0]
    rw [show i + 1 + j = i + (j + 1) from by omega]

/-- `assign_positions` only changes recorded positions. -/
theorem assign_positions_fields :
    ∀ (gs : List (List Nat)) (pstate : Nat → PState) (i q : Nat),
    (assign_positions pstate gs i q).cube = (pstate q).cube ∧
    (assign_positions pstate gs i q).ability_active =
      (pstate q).ability_active
  | [], _, _, _ => ⟨rfl, rfl⟩
  | g :: gs, pstate, i, q => by
    rw [assign_positions]
    have ih := assign_positions_fields gs (set_positions pstate i g) (i + 1) q
    rw [set_positions_eq] at ih
    by_cases hq : q ∈ g
    · rw [if_pos hq] at ih
      simpa using ih
    · rw [if_neg hq] at ih
      exact ih

/-- Dropping the empty pads does not change the flattened occupants. -/
theorem flatten_filter_nonempty :
    ∀ (L : List (List Nat)),
    (L.filter (fun pad => !pad.isEmpty)).flatten = L.flatten
  | [] => rfl
  | pad :: L => by
    rw [List.filter_cons]
    by_cases hp : pad.isEmpty
    · have : pad = [] := List.isEmpty_iff.mp hp
      subst this
      simpa using flatten_filter_nonempty L
    · simp only [hp, Bool.not_false, if_pos]
      simp [flatten_filter_nonempty L]

/-- A first-half `match_setup` establishes the combined invariant (for a
non-empty track and duplicate-free roster). -/
theorem stepInvs_match_setup_first {s : SimState} {n : Nat} {rng : Rng}
    (hn : 0 < n) (hnd : s.players.Nodup) (hcam : CamellyaOff s) :
    StepInvs (match_setup s n true rng).1 := by
  rcases hro : (if s.shuffle_players then sample_perm rng s.players
    else (s.players, rng)) with ⟨roster, rng'⟩
  have hperm : roster.Perm s.players := by
    by_cases hsh : s.shuffle_players
    · rw [if_pos hsh] at hro
      have hsp := sample_perm_perm rng s.players
      rw [hro] at hsp
      exact hsp
    · rw [if_neg hsh] at hro
      injection hro with h1 h2
      rw [← h1]
  obtain ⟨m, rfl⟩ : ∃ m, n = m + 1 := ⟨n - 1, by omega⟩
  have hms : (match_setup s (m + 1) true rng).1 =
      { s with players := roster,
               track := roster :: List.replicate m [],
               pstate := set_positions s.pstate 0 roster } := by
    unfold match_setup
    rw [if_pos rfl, hro]
    rfl
  rw [hms]
  refine ⟨⟨?_, ?_, ?_⟩, ?_⟩
  · exact hperm.nodup_iff.mpr hnd
  · simpa using hperm
  · intro q hq i pad hget hmemq
    dsimp only at hget hmemq hq ⊢
    rw [set_positions_eq]
    cases i with
    | zero =>
      injection hget with hg
      subst hg
      rw [if_pos hmemq]
    | succ i =>
      exfalso
      simp only [List.get?_cons_succ] at hget
      rcases Nat.lt_or_ge i m with hi | hi
      · rw [List.get?_eq_getElem?, List.getElem?_replicate,
          if_pos (by simpa using hi)] at hget
        injection hget with hg
        subst hg
        simp at hmemq
      · rw [List.get?_eq_none.mpr (by simpa using hi)] at hget
        exact Option.noConfusion hget
  · intro q hq
    dsimp only at hq ⊢
    rw [set_positions_eq] at hq ⊢
    by_cases hmem : q ∈ roster
    · rw [if_pos hmem] at hq ⊢
      exact hcam q hq
    · rw [if_neg hmem] at hq ⊢
      exact hcam q hq

/-- A second-half `match_setup` preserves the combined invariant. -/
theorem stepInvs_match_setup_second {s : SimState} {n : Nat} {rng : Rng}
    (h : StepInvs s) : StepInvs (match_setup s n false rng).1 := by
  obtain ⟨⟨hnd, hperm, hpos⟩, hcam⟩ := h
  have hms : (match_setup s n false rng).1 =
      { s with
        track := summary_stacks s ++ List.replicate n [],
        pstate := assign_positions s.pstate (summary_stacks s) 0 } := by
    unfold match_setup
    rw [if_neg (by simp)]
    have hag := assign_groups_replicate (summary_stacks s) []
      (n + (summary_stacks s).length) (by omega)
    simp only [List.nil_append, List.length_nil] at hag
    rw [show n + (summary_stacks s).length - (summary_stacks s).length = n
      from by omega] at hag
    simp only [hag]
  rw [hms]
  have hflat : (summary_stacks s).flatten = s.track.flatten :=
    flatten_filter_nonempty s.track
  have hcnt1 : ∀ q ∈ s.players, (summary_stacks s).flatten.count q = 1 := by
    intro q hq
    rw [hflat, hperm.count_eq]
    exact List.count_eq_one_of_mem hnd hq
  refine ⟨⟨hnd, ?_, ?_⟩, ?_⟩
  · dsimp only
    rw [List.flatten_append, hflat]
    have hrep : (List.replicate n ([] : List Nat)).flatten = [] := by simp
    rw [hrep, List.append_nil]
    exact hperm
  · intro q hq i pad hget hmemq
    dsimp only at hget hmemq ⊢
    rcases Nat.lt_or_ge i (summary_stacks s).length with hi | hi
    · rw [List.get?_append (by simpa using hi)] at hget
      rw [assign_positions_mem (summary_stacks s) s.pstate 0 q i pad hget
        hmemq (hcnt1 q hq)]
      simp
    · rw [List.get?_append_right (by simpa using hi)] at hget
      rcases Nat.lt_or_ge (i - (summary_stacks s).length) n with hj | hj
      · rw [List.get?_eq_getElem?, List.getElem?_replicate,
          if_pos (by simpa using hj)] at hget
        injection hget with hg
        subst hg
        simp at hmemq
      · rw [List.get?_eq_none.mpr (by simpa using hj)] at hget
        exact Option.noConfusion hget
  · intro q hq
    dsimp only at hq ⊢
    obtain ⟨hcube, hact⟩ :=
      assign_positions_fields (summary_stacks s) s.pstate 0 q
    rw [hact]
    refine hcam q ?_
    rw [← hcube]
    exact hq

/-- Every state reachable from a state satisfying the combined
invariant satisfies it too. -/
theorem stepInvs_reachable {s₀ s : SimState} (h₀ : StepInvs s₀)
    (hr : Reachable s₀ s) : StepInvs s := by
  induction hr with
  | refl => exact h₀
  | round _ hm ih => exact stepInvs_one_round ih hm
  | leg_setup fh rng _ ih =>
    unfold half_game_setup
    cases fh
    · exact stepInvs_match_setup_second ih
    · exact stepInvs_match_setup_first (by omega) ih.1.1 ih.2

/-- A freshly constructed match satisfies the combined invariant. -/
theorem stepInvs_mkSim (cubes : List CubeType) (n : Nat) (shuffle : Bool)
    (rng : Rng) (hn : 0 < n) : StepInvs (mkSim cubes n shuffle rng).1 := by
  unfold mkSim
  exact stepInvs_match_setup_first hn (List.nodup_range _) (fun q _ => rfl)

/-- Claim C7 (confirmed): in every state reachable in a match (through
completed rounds and the between-leg resets), the sum of competitors
across all pad stacks equals the roster size, every competitor appears
in exactly one pad's stack (its count across the flattened track is 1),
and each competitor's recorded position is the index of the pad holding
it. -/
theorem claim_C7_track_position_invariant {cubes : List CubeType}
    {n : Nat} {shuffle : Bool} {rng₀ : Rng} {s : SimState}
    (hn : 0 < n)
    (hr : Reachable (mkSim cubes n shuffle rng₀).1 s) :
    (s.track.map List.length).sum = s.players.length ∧
    (∀ pid ∈ s.players, s.track.flatten.count pid = 1) ∧
    (∀ pid ∈ s.players, ∀ i pad, s.track.get? i = some pad → pid ∈ pad →
      (s.pstate pid).position = i) := by
  obtain ⟨⟨hnd, hperm, hpos⟩, -⟩ :=
    stepInvs_reachable (stepInvs_mkSim cubes n shuffle rng₀ hn) hr
  refine ⟨?_, ?_, hpos⟩
  · calc (s.track.map List.length).sum
        = s.track.flatten.length := (List.length_flatten _).symm
      _ = s.players.length := hperm.length_eq
  · intro pid hpid
    rw [hperm.count_eq]
    exact List.count_eq_one_of_mem hnd hpid

/-- Claim C10 (confirmed): in every reachable state, every Camellya
player object's activation flag is `False` — no code path ever sets it
`True` (the only write guarded by the flag re-rolls an already-`True`
flag) — so `CamellyaCube.calculate_actions` always takes its default
branch, returning exactly the default carry actions with the player
state and random stream untouched. -/
theorem claim_C10_camellya_flag_never_set {cubes : List CubeType}
    {n : Nat} {shuffle : Bool} {rng₀ : Rng} {s : SimState}
    (hn : 0 < n)
    (hr : Reachable (mkSim cubes n shuffle rng₀).1 s) :
    ∀ q, (s.pstate q).cube = .camellya →
      (s.pstate q).ability_active = false ∧
      ∀ step_size stacked_on stacked_by first_step rng,
        CamellyaCube.calculate_actions q (s.pstate q) step_size stacked_on
          stacked_by first_step rng =
        (Player.calculate_actions q step_size stacked_by,
          s.pstate q, rng) := by
  obtain ⟨-, hcam⟩ :=
    stepInvs_reachable (stepInvs_mkSim cubes n shuffle rng₀ hn) hr
  intro q hq
  have hoff := hcam q hq
  refine ⟨hoff, ?_⟩
  intro step_size stacked_on stacked_by first_step rng
  unfold CamellyaCube.calculate_actions
  rw [hoff]
  simp [hoff]

/-- Witness for C7: the freshly set-up two-player match on a 3-pad
track (a reachable state by reflexivity) satisfies all three
conclusions, evaluated concretely. -/
theorem claim_C7_track_position_invariant_witness :
    0 < 3 ∧
    ((((mkSim [.base, .base] 3 false ⟨fun _ => 0, 0⟩).1.track.map
        List.length).sum =
      (mkSim [.base, .base] 3 false ⟨fun _ => 0, 0⟩).1.players.length) ∧
    (∀ pid ∈ (mkSim [.base, .base] 3 false ⟨fun _ => 0, 0⟩).1.players,
      (mkSim [.base, .base] 3 false
        ⟨fun _ => 0, 0⟩).1.track.flatten.count pid = 1) ∧
    (∀ pid ∈ (mkSim [.base, .base] 3 false ⟨fun _ => 0, 0⟩).1.players,
      ∀ i pad,
        (mkSim [.base, .base] 3 false
          ⟨fun _ => 0, 0⟩).1.track.get? i = some pad → pid ∈ pad →
        ((mkSim [.base, .base] 3 false
          ⟨fun _ => 0, 0⟩).1.pstate pid).position = i)) :=
  ⟨by decide, claim_C7_track_position_invariant (by decide) (Reachable.refl _)⟩

/-- Witness for C10: the freshly set-up match whose player 0 is a
Camellya cube (a reachable state by reflexivity): its flag is unset and
its action calculation is the default one. -/
theorem claim_C10_camellya_flag_never_set_witness :
    0 < 3 ∧
    (∀ q, ((mkSim [.camellya, .base] 3 false
        ⟨fun _ => 0, 0⟩).1.pstate q).cube = .camellya →
      ((mkSim [.camellya, .base] 3 false
        ⟨fun _ => 0, 0⟩).1.pstate q).ability_active = false ∧
      ∀ step_size stacked_on stacked_by first_step rng,
        CamellyaCube.calculate_actions q
          ((mkSim [.camellya, .base] 3 false ⟨fun _ => 0, 0⟩).1.pstate q)
          step_size stacked_on stacked_by first_step rng =
        (Player.calculate_actions q step_size stacked_by,
          (mkSim [.camellya, .base] 3 false ⟨fun _ => 0, 0⟩).1.pstate q,
          rng)) :=
  ⟨by decide, claim_C10_camellya_flag_never_set (by decide) (Reachable.refl _)⟩
